import Mathlib

/-!
Verification of the package-method resolution and command-emission pipeline
of `src/install_script_generator.py` (distroscript).

The Python source is shallowly embedded: each class/function below mirrors
one construct of the source file, with Python exceptions modelled as
`Except String` / error results, the mutable generator state as an explicit
`St` record threaded through the traversal, and the unbounded recursion of
`install_package` as a fuel-indexed function (`Res.nofuel` marks fuel
exhaustion; the Python program has no fuel, so a run whose result is
`Res.nofuel` for every fuel corresponds to non-termination of the source).
-/

namespace Distroscript

/-- Target operating systems accepted by `generate_script` / the CLI
(`--os` is restricted to `fedora` / `ubuntu`). -/
inductive OS where
  | fedora
  | ubuntu
deriving DecidableEq, Repr

/-- A raw pre/post-install hook spec as it appears in the YAML: either a bare
string (`BashScript`) or a mapping with the fields `ScriptFactory.create_script`
reads (`type`, `script`, `destination`, `content`, `sudo`). -/
inductive ScriptCfg where
  | lit (s : String)
  | tbl (type? : Option String) (script : Option String) (destination : Option String)
        (content : Option String) (sudoFlag : Bool)
deriving DecidableEq, Repr

/-- A parsed install-script object (`BashScript` / `TeeScript`). -/
inductive Script where
  | bash (s : String)
  | tee (destination : String) (content : String) (sudoFlag : Bool)
deriving DecidableEq, Repr

/-- The method-variant tags registered in `PackageFactory._package_types`. -/
inductive PType where
  | dnf | apt | snapd | pip | deb | flatpak | github | file | tarball | bash | zsh
deriving DecidableEq, Repr

/-- `PackageFactory._package_types` membership: the tag string of each
registered package class. -/
def registryLookup : String → Option PType
  | "dnf" => some .dnf
  | "apt" => some .apt
  | "snapd" => some .snapd
  | "pip" => some .pip
  | "deb" => some .deb
  | "flatpak" => some .flatpak
  | "github" => some .github
  | "file" => some .file
  | "tarball" => some .tarball
  | "bash" => some .bash
  | "zsh" => some .zsh
  | _ => none

/-! ### Character-level string operations

Python string methods (`split`, `strip`, `startswith`, slicing) are modelled
by structurally recursive functions over the character list of a `String`,
with exactly Python's semantics. -/

/-- `s.split(sep)` for a single-character separator: the groups between
separator occurrences, in order, empties included. -/
def splitCharsOn (sep : Char) : List Char → List (List Char)
  | [] => [[]]
  | c :: rest =>
    match splitCharsOn sep rest with
    | [] => [[c]]
    | w :: ws => if c = sep then [] :: w :: ws else (c :: w) :: ws

/-- Like `splitCharsOn` but splitting at every character satisfying `p`. -/
def splitCharsOnP (p : Char → Bool) : List Char → List (List Char)
  | [] => [[]]
  | c :: rest =>
    match splitCharsOnP p rest with
    | [] => [[c]]
    | w :: ws => if p c then [] :: w :: ws else (c :: w) :: ws

/-- Python's `content.split('\n')`. -/
def splitNl (s : String) : List String := (splitCharsOn '\n' s.data).map String.mk

/-- Python's `line.strip()` (whitespace from both ends). -/
def pyStrip (s : String) : String :=
  String.mk (((s.data.dropWhile Char.isWhitespace).reverse.dropWhile Char.isWhitespace).reverse)

/-- Structural prefix test on character lists (matches lazily on the first
list, so it reduces even when only the prefix is concrete). -/
def isPfx : List Char → List Char → Bool
  | [], _ => true
  | c :: cs, l =>
    match l with
    | [] => false
    | d :: ds => c == d && isPfx cs ds

/-- Python's `s.startswith(p)`. -/
def pyStartsWith (s p : String) : Bool := isPfx p.data s.data

/-- Python's `s[n:]` (drop the first `n` characters). -/
def pyDropChars (s : String) (n : Nat) : String := String.mk (s.data.drop n)

mutual
/-- A method-spec mapping: the fields of the YAML config dict that the source
reads. The YAML key `repo` holds either a mapping (read by `DnfPackage`,
where only its `file` entry is ever used) or a string (read by
`GithubPackage`); the embedding splits the two shapes into `repoTable`
(outer option: the `repo` key is present as a mapping; inner option: its
`file` entry) and `repoStr` (string shape). `dependsOn = some l` models the
presence of the `depends_on` key (checked by `'depends_on' in package.config`),
which is distinct from an absent key even when `l` is empty. An absent
`pre_install`/`post_install` key behaves exactly like an empty list, so both
are `List ScriptCfg`; the source's normalisation of a single non-list hook to
a one-element list is likewise represented by the one-element list. -/
inductive Cfg where
  | mk (type? : Option String) (packages : Option (List String)) (classic : Bool)
       (dependsOn : Option (List DepEntry)) (preInstall : List ScriptCfg)
       (postInstall : List ScriptCfg) (repoTable : Option (Option String))
       (repoStr : Option String) (url : Option String) (destination : Option String)
       (sudoFlag : Bool) (installScript : Option String) (script : Option String)

/-- One entry of a `depends_on` list: a bare package name or an inline
method-spec mapping. -/
inductive DepEntry where
  | nm (s : String)
  | inline (cfg : Cfg)
end

def Cfg.type? : Cfg → Option String
  | .mk t _ _ _ _ _ _ _ _ _ _ _ _ => t

def Cfg.packages : Cfg → Option (List String)
  | .mk _ p _ _ _ _ _ _ _ _ _ _ _ => p

def Cfg.classic : Cfg → Bool
  | .mk _ _ c _ _ _ _ _ _ _ _ _ _ => c

def Cfg.dependsOn : Cfg → Option (List DepEntry)
  | .mk _ _ _ d _ _ _ _ _ _ _ _ _ => d

def Cfg.preInstall : Cfg → List ScriptCfg
  | .mk _ _ _ _ pre _ _ _ _ _ _ _ _ => pre

def Cfg.postInstall : Cfg → List ScriptCfg
  | .mk _ _ _ _ _ post _ _ _ _ _ _ _ => post

def Cfg.repoTable : Cfg → Option (Option String)
  | .mk _ _ _ _ _ _ r _ _ _ _ _ _ => r

def Cfg.repoStr : Cfg → Option String
  | .mk _ _ _ _ _ _ _ r _ _ _ _ _ => r

def Cfg.url : Cfg → Option String
  | .mk _ _ _ _ _ _ _ _ u _ _ _ _ => u

def Cfg.destination : Cfg → Option String
  | .mk _ _ _ _ _ _ _ _ _ d _ _ _ => d

def Cfg.sudoFlag : Cfg → Bool
  | .mk _ _ _ _ _ _ _ _ _ _ s _ _ => s

def Cfg.installScript : Cfg → Option String
  | .mk _ _ _ _ _ _ _ _ _ _ _ i _ => i

def Cfg.script : Cfg → Option String
  | .mk _ _ _ _ _ _ _ _ _ _ _ _ s => s

/-- Replace the `type` entry of a config mapping (`config['type'] = package_type`). -/
def Cfg.setType : Cfg → String → Cfg
  | .mk _ p c d pre post rt rs u dst s i sc, t =>
      .mk (some t) p c d pre post rt rs u dst s i sc

/-- A config mapping with every field absent/default: what the dict
`{'type': t}` holds beyond its `type` key. -/
def emptyCfg (t : Option String) : Cfg :=
  .mk t none false none [] [] none none none none false none none

/-- A raw method spec as it appears in a manifest value list: a bare tag
string or a config mapping. -/
inductive MCfg where
  | str (s : String)
  | tbl (cfg : Cfg)

/-- `ScriptFactory.create_script`: a bare string becomes a `BashScript`; a
mapping dispatches on `config.get('type', 'bash')`, failing on an
unregistered script type or (KeyError) on a missing required field. -/
def createScript : ScriptCfg → Except String Script
  | .lit s => .ok (.bash s)
  | .tbl type? script destination content sudoFlag =>
    let t := type?.getD "bash"
    if t = "bash" then
      match script with
      | some s => .ok (.bash s)
      | none => .error "KeyError: 'script'"
    else if t = "tee" then
      match destination with
      | none => .error "KeyError: 'destination'"
      | some d =>
        match content with
        | none => .error "KeyError: 'content'"
        | some c => .ok (.tee d c sudoFlag)
    else .error ("Unknown script type: " ++ t)

/-- Sequential parsing of a hook list (the `for script_config in scripts`
loops in `Package.__init__`); the first exception aborts. -/
def parseScripts : List ScriptCfg → Except String (List Script)
  | [] => .ok []
  | c :: rest => do
      let s ← createScript c
      let l ← parseScripts rest
      .ok (s :: l)

/-- `get_implicit_dependencies` of each package class. `SnapdPackage` and
`PipPackage` raise `ValueError` when the package is the manager itself;
`ZshPackage` adds `zsh`; every other class adds nothing. -/
def implicitDeps : PType → String → Except String (List DepEntry)
  | .snapd, n => if n ≠ "snapd" then .ok [.nm "snapd"] else .error "snapd cannot depend on snapd"
  | .pip, n => if n ≠ "pip" then .ok [.nm "pip"] else .error "pip cannot depend on pip"
  | .zsh, _ => .ok [.nm "zsh"]
  | _, _ => .ok []

/-- A resolved package: one instantiated method-variant bound to a name
(`Package.__init__` results: parsed dependency list with implicit
dependencies appended, parsed pre/post hooks, and the original config kept
for variant-specific emission). -/
structure Pkg where
  name : String
  ptype : PType
  config : Cfg
  dependencies : List DepEntry
  preScripts : List Script
  postScripts : List Script

/-- `PackageFactory.create_package`: a bare string spec becomes
`{'type': spec}`; a missing `type` field falls back to the package name
(and is written back into the config); an unregistered tag raises
`Unknown package type`; otherwise the class constructor runs
(`Package.__init__`: dependencies, pre hooks, post hooks, then implicit
dependencies, in that order, each step able to raise). -/
def createPackage (name : String) (mc : MCfg) : Except String Pkg :=
  let cfg := match mc with
    | .str s => emptyCfg (some s)
    | .tbl c => c
  let t := cfg.type?.getD name
  match registryLookup t with
  | none => .error ("Unknown package type: " ++ t)
  | some pt => do
      let pre ← parseScripts cfg.preInstall
      let post ← parseScripts cfg.postInstall
      let imp ← implicitDeps pt name
      .ok { name := name, ptype := pt, config := cfg.setType t,
            dependencies := (cfg.dependsOn.getD []) ++ imp,
            preScripts := pre, postScripts := post }

/-- `is_available_for_os` of each package class. -/
def isAvailable (p : Pkg) (os : OS) : Bool :=
  match p.ptype with
  | .dnf => os == .fedora
  | .apt => os == .ubuntu
  | .snapd => os == .fedora || os == .ubuntu
  | .deb => os == .ubuntu
  | _ => true

/-- `' '.join(l)`. -/
def joinSp : List String → String
  | [] => ""
  | [x] => x
  | x :: y :: rest => x ++ " " ++ joinSp (y :: rest)

/-- `'\n'.join(l)`. -/
def joinNl : List String → String
  | [] => ""
  | [x] => x
  | x :: y :: rest => x ++ "\n" ++ joinNl (y :: rest)

/-- The `printf '%s\n' 'line1' 'line2' ...` part of `TeeScript.generate`:
each line of the content is wrapped in single quotes verbatim (no escaping
of characters inside the line). -/
def printfCmdOf (content : String) : String :=
  "printf '%s\\n' " ++ joinSp ((splitNl content).map (fun l => "'" ++ l ++ "'"))

/-- The single command line `TeeScript.generate` emits. -/
def teeLine (destination content : String) (sudoFlag : Bool) : String :=
  printfCmdOf content ++ " | " ++ (if sudoFlag then "sudo " else "") ++ "tee " ++ destination

/-- `InstallScript.generate` for a parsed script object. -/
def genScript : Script → List String
  | .bash s => [s]
  | .tee d c su => [teeLine d c su]

/-- `generate_pre_install_commands`. -/
def preCmds (p : Pkg) : List String := p.preScripts.flatMap genScript

/-- `generate_post_install_commands`. -/
def postCmds (p : Pkg) : List String := p.postScripts.flatMap genScript

/-- The non-blank stripped lines of a GitHub `install_script`
(`line.strip()` / skip empties), indented by two spaces. -/
def ghScriptLines (s : String) : List String :=
  ((splitNl s).map pyStrip).filter (· ≠ "") |>.map ("  " ++ ·)

/-- The four command lines `DebPackage` emits per package URL. -/
def debCmds (pkgUrl : String) : List String :=
  ["TEMP_FILE=$(mktemp)",
   "curl -o \"$TEMP_FILE\" " ++ pkgUrl,
   "sudo apt install \"$TEMP_FILE\"",
   "rm \"$TEMP_FILE\""]

/-- `generate_install_commands` of each package class, with Python's
`KeyError` on a missing required config field modelled as an error. -/
def emitInstall (p : Pkg) (os : OS) : Except String (List String) :=
  match p.ptype with
  | .dnf =>
      if os ≠ .fedora then .ok [] else
      let repoLines := match p.config.repoTable with
        | some (some f) => ["sudo dnf config-manager --add-repo " ++ f]
        | _ => []
      let packages := p.config.packages.getD [p.name]
      .ok (repoLines ++ ["sudo dnf install -y " ++ joinSp packages])
  | .apt =>
      if os ≠ .ubuntu then .ok [] else
      .ok ["sudo apt install -y " ++ joinSp (p.config.packages.getD [p.name])]
  | .snapd =>
      let packages := p.config.packages.getD [p.name]
      if p.name = "snapd" then
        match os with
        | .fedora => .ok ["sudo dnf install -y " ++ joinSp packages]
        | .ubuntu => .ok ["sudo apt install -y " ++ joinSp packages]
      else
        let flag := if p.config.classic then " --classic" else ""
        .ok (packages.map (fun pkg => "sudo snap install " ++ pkg ++ flag))
  | .pip => .ok ["pip3 install " ++ joinSp (p.config.packages.getD [p.name])]
  | .deb =>
      if os ≠ .ubuntu then .ok [] else
      .ok ((p.config.packages.getD []).flatMap debCmds)
  | .flatpak =>
      .ok ((p.config.packages.getD [p.name]).map (fun pkg => "flatpak install -y flathub " ++ pkg))
  | .github =>
      match p.config.repoStr with
      | none => .error "KeyError: 'repo'"
      | some repo =>
        match p.config.installScript with
        | none => .error "KeyError: 'install_script'"
        | some is =>
          .ok (["git clone https://github.com/" ++ repo ++ ".git " ++ p.name,
                "(", "  cd " ++ p.name] ++ ghScriptLines is ++ [")", "rm -rf " ++ p.name])
  | .file =>
      match p.config.url with
      | none => .error "KeyError: 'url'"
      | some url =>
        match p.config.destination with
        | none => .error "KeyError: 'destination'"
        | some dst =>
          .ok ["curl -fsSL \"" ++ url ++ "\" | " ++
               (if p.config.sudoFlag then "sudo " else "") ++ "tee " ++ dst]
  | .tarball =>
      match p.config.url with
      | none => .error "KeyError: 'url'"
      | some url =>
        match p.config.destination with
        | none => .error "KeyError: 'destination'"
        | some dst =>
          .ok ["curl -fsSL \"" ++ url ++ "\" | " ++
               (if p.config.sudoFlag then "sudo " else "") ++ "tar xvzC \"" ++ dst ++ "\""]
  | .bash => .ok ["./" ++ p.name ++ ".sh"]
  | .zsh => .ok ["zsh ./" ++ p.name ++ ".zsh"]

/-- A loaded manifest: `InstallScriptGenerator.packages`, the name-keyed
mapping of variant lists, in manifest declaration order. -/
abbrev Mani := List (String × List Pkg)

/-- The `for method in methods` loop of `load_yaml`: construct each variant
in order, aborting on the first configuration error. -/
def createAll (name : String) : List MCfg → Except String (List Pkg)
  | [] => .ok []
  | mc :: rest => do
      let p ← createPackage name mc
      let l ← createAll name rest
      .ok (p :: l)

/-- `InstallScriptGenerator.load_yaml` over the raw manifest (each value
already normalised to a list of method specs, which is glue). -/
def loadPackages : List (String × List MCfg) → Except String Mani
  | [] => .ok []
  | (name, ms) :: rest => do
      let vars ← createAll name ms
      let m ← loadPackages rest
      .ok ((name, vars) :: m)

/-- First variant list registered under a name. -/
def lookupVariants (m : Mani) (name : String) : Option (List Pkg) :=
  (m.find? (·.1 == name)).map (·.2)

/-- `InstallScriptGenerator._get_package_for_os`: the first variant in the
declared list whose applicability test accepts the OS; `none` when the name
is absent or no variant applies. -/
def resolve (m : Mani) (os : OS) (name : String) : Option Pkg :=
  match lookupVariants m name with
  | none => none
  | some vars => vars.find? (isAvailable · os)

/-- The tag a command carries in the generator's bookkeeping: the source
attaches the originating `Package` object (`None` for hook and guard lines);
inline dependency packages are fresh objects, distinguished here by the
commands-list length at their creation, mirroring their generated name. -/
inductive Tag where
  | anon
  | pkg (name : String)
  | inline (k : Nat)
deriving DecidableEq, Repr

/-- One element of the generator's command lists: `{'cmd': ..., 'package': ...}`. -/
structure Entry where
  cmd : String
  tag : Tag
deriving DecidableEq, Repr

/-- The mutable state of `generate_script`: `commands`,
`install_cmds_to_merge`, `pre_to_prepend`, `posts_to_append`, `installed`. -/
structure St where
  commands : List Entry
  toMerge : List Entry
  prePre : List String
  postApp : List String
  installed : List String
deriving DecidableEq, Repr, Inhabited

def St.empty : St := ⟨[], [], [], [], []⟩

/-- Outcome of a fuel-indexed traversal step: a Python run that terminates
normally is `ok`, an uncaught exception is `err`, and `nofuel` marks fuel
exhaustion (a run that is `nofuel` for every fuel diverges in the source). -/
inductive Res where
  | ok (st : St)
  | err (e : String)
  | nofuel
deriving DecidableEq, Repr

/-- The runtime existence-guard line emitted for an unresolvable named
dependency. -/
def guardEntry (d : String) : Entry :=
  ⟨"which " ++ d ++ " || \x7b echo \"Warning: " ++ d ++ " not found\"; exit 1; \x7d", .anon⟩

def anonEntries (l : List String) : List Entry := l.map (⟨·, .anon⟩)

/-- Route a package's pre-install hook lines: appended to `commands`
immediately when the package declares `depends_on`, otherwise collected in
`pre_to_prepend`. (The source guards on non-emptiness; appending an empty
list is the identity, so the guard is omitted.) -/
def routePre (p : Pkg) (st : St) : St :=
  if p.config.dependsOn.isSome then
    { st with commands := st.commands ++ anonEntries (preCmds p) }
  else
    { st with prePre := st.prePre ++ preCmds p }

/-- Route a package's install command lines: straight to `commands` when it
declares `depends_on`, otherwise into the merge-eligible list. -/
def routeInstall (p : Pkg) (cmds : List String) (st : St) : St :=
  if p.config.dependsOn.isSome then
    { st with commands := st.commands ++ cmds.map (⟨·, .pkg p.name⟩) }
  else
    { st with toMerge := st.toMerge ++ cmds.map (⟨·, .pkg p.name⟩) }

/-- Route a package's post-install hook lines, dual to `routePre`. -/
def routePost (p : Pkg) (st : St) : St :=
  if p.config.dependsOn.isSome then
    { st with commands := st.commands ++ anonEntries (postCmds p) }
  else
    { st with postApp := st.postApp ++ postCmds p }

/-- The state change of an inline dependency installation: its pre hooks,
install commands (tagged with the inline package) and post hooks appended to
`commands` in order. -/
def inlineAppend (tp : Pkg) (k : Nat) (cmds : List String) (st : St) : St :=
  { st with commands := st.commands ++ anonEntries (preCmds tp)
      ++ cmds.map (⟨·, .inline k⟩) ++ anonEntries (postCmds tp) }

/-- The `for dep in package.get_dependencies()` loop of `install_package`,
parameterised by the action `inst` that installs one named package (the
recursive `install_package` call at the remaining recursion budget): a bare
name either recurses (when resolvable) or emits a runtime guard line; an
inline spec is instantiated as an anonymous package (a missing `type` key
makes the source build `{'type': dep}` with the dict as value, which crashes
hashing it) and, when applicable, its hooks and install commands are
appended directly. -/
def depsLoop (m : Mani) (os : OS) (inst : String → St → Res) :
    List DepEntry → St → Res
  | [], st => .ok st
  | .nm d :: rest, st =>
      match resolve m os d with
      | some _ =>
        match inst d st with
        | .ok st' => depsLoop m os inst rest st'
        | r => r
      | none => depsLoop m os inst rest { st with commands := st.commands ++ [guardEntry d] }
  | .inline cfg :: rest, st =>
      match cfg.type? with
      | none => .err "TypeError: unhashable type: 'dict'"
      | some _ =>
        match createPackage ("inline_dep_" ++ toString st.commands.length) (.tbl cfg) with
        | .error e => .err e
        | .ok tp =>
          if isAvailable tp os then
            match emitInstall tp os with
            | .error e => .err e
            | .ok cmds => depsLoop m os inst rest (inlineAppend tp st.commands.length cmds st)
          else depsLoop m os inst rest st

/-- `install_package` of `InstallScriptGenerator.generate_script`:
short-circuit on the installed set, resolve the package, process its
dependency list, then route pre hooks / install commands / post hooks and
mark the name installed. Fuel bounds the recursion depth; the source has no
such bound, so exhausting every fuel models non-termination. -/
def installPackage (m : Mani) (os : OS) : Nat → String → St → Res
  | 0, _, _ => .nofuel
  | fuel + 1, name, st =>
    if name ∈ st.installed then .ok st
    else
      match resolve m os name with
      | none => .ok st
      | some p =>
        match depsLoop m os (installPackage m os fuel) p.dependencies st with
        | .ok st1 =>
          let st2 := routePre p st1
          match emitInstall p os with
          | .error e => .err e
          | .ok cmds =>
            let st4 := routePost p (routeInstall p cmds st2)
            .ok { st4 with installed := st4.installed.insert name }
        | r => r

/-- The dependency loop as run inside `installPackage (fuel + 1)`. -/
def installDeps (m : Mani) (os : OS) (fuel : Nat) : List DepEntry → St → Res :=
  depsLoop m os (installPackage m os fuel)

/-- The post-dependency emission phase of `install_package` as one function:
route pre hooks, install commands, post hooks, then mark installed. -/
def emitPhase (p : Pkg) (name : String) (cmds : List String) (st1 : St) : St :=
  let st4 := routePost p (routeInstall p cmds (routePre p st1))
  { st4 with installed := st4.installed.insert name }

/-- The top-level `for name in self.packages.keys()` loop: names with an
applicable variant are installed in manifest order. -/
def installAll (m : Mani) (os : OS) (fuel : Nat) : List String → St → Res
  | [], st => .ok st
  | name :: rest, st =>
      if (resolve m os name).isSome then
        match installPackage m os fuel name st with
        | .ok st' => installAll m os fuel rest st'
        | r => r
      else installAll m os fuel rest st

/-- `_write_scripts`: every variant of every name that is applicable to the
OS writes its script file first; `BashPackage`/`ZshPackage` read
`config['script']`, raising `KeyError` when it is missing. The filesystem
side effect itself does not influence the command stream, so only its
possible failure is modelled. -/
def writeCheck (os : OS) : Mani → Except String Unit
  | [] => .ok ()
  | (_, vars) :: rest =>
      if vars.any (fun p => isAvailable p os &&
          (p.ptype == .bash || p.ptype == .zsh) && p.config.script == none) then
        .error "KeyError: 'script'"
      else writeCheck os rest

/-- One step of `merge_consecutive_commands`: update the insertion-ordered
group map (modelled as an association list) with one command line. -/
def splitWS (s : String) : List String :=
  ((splitCharsOnP Char.isWhitespace s.data).map String.mk).filter (· ≠ "")

/-- Append an argument to the group registered under `key`, creating the
group at the end on first sight. -/
def upsertArg (acc : List (String × List String)) (key arg : String) :
    List (String × List String) :=
  if acc.any (·.1 == key) then
    acc.map (fun g => if g.1 == key then (g.1, g.2 ++ [arg]) else g)
  else acc ++ [(key, [arg])]

/-- `merged[cmd] = ['']`: dict assignment keeps the insertion position of an
existing key and replaces its value. -/
def setSingleton (acc : List (String × List String)) (cmd : String) :
    List (String × List String) :=
  if acc.any (·.1 == cmd) then
    acc.map (fun g => if g.1 == cmd then (g.1, [""]) else g)
  else acc ++ [(cmd, [""])]

def mergeStep (acc : List (String × List String)) (cmd : String) :
    List (String × List String) :=
  if pyStartsWith cmd "sudo dnf install -y " then
    upsertArg acc "sudo dnf install -y" (pyDropChars cmd "sudo dnf install -y ".length)
  else if pyStartsWith cmd "sudo apt install -y " then
    upsertArg acc "sudo apt install -y" (pyDropChars cmd "sudo apt install -y ".length)
  else if pyStartsWith cmd "sudo snap install " then
    match splitWS cmd with
    | "sudo" :: "snap" :: "install" :: pkg :: flags =>
        let flag := if flags.length > 0 then " " ++ joinSp flags else ""
        upsertArg acc ("sudo snap install" ++ flag) pkg
    | _ => setSingleton acc cmd
  else if pyStartsWith cmd "flatpak install -y flathub " then
    upsertArg acc "flatpak install -y flathub" (pyDropChars cmd "flatpak install -y flathub ".length)
  else if pyStartsWith cmd "pip3 install " then
    upsertArg acc "pip3 install" (pyDropChars cmd "pip3 install ".length)
  else setSingleton acc cmd

/-- Render one group of `merge_consecutive_commands`' result loop. -/
def renderGroup (g : String × List String) : String :=
  if g.2 = [""] then g.1 else g.1 ++ " " ++ joinSp g.2

/-- `merge_consecutive_commands`: group the collected merge-eligible command
lines by manager prefix (insertion-ordered) and render one invocation per
group. -/
def mergeCmds (l : List Entry) : List String :=
  ((l.map (·.cmd)).foldl mergeStep []).map renderGroup

/-- The final line list of `generate_script`: collected pre hooks, merged
installs, the direct command stream, collected post hooks. -/
def assembleLines (st : St) : List String :=
  st.prePre ++ mergeCmds st.toMerge ++ st.commands.map (·.cmd) ++ st.postApp

def assemble (st : St) : String := joinNl (assembleLines st)

/-- `generate_script` up to (and excluding) the final merge/assembly: write
script files, then run the top-level installation loop from the empty state. -/
def generateSt (m : Mani) (os : OS) (fuel : Nat) : Res :=
  match writeCheck os m with
  | .error e => .err e
  | .ok _ => installAll m os fuel (m.map (·.1)) St.empty

/-- Outcome of the whole pipeline. -/
inductive Out where
  | script (s : String)
  | err (e : String)
  | nofuel
deriving DecidableEq, Repr

/-- `generate_script`: the assembled newline-joined script text. -/
def generateScript (m : Mani) (os : OS) (fuel : Nat) : Out :=
  match generateSt m os fuel with
  | .ok st => .script (assemble st)
  | .err e => .err e
  | .nofuel => .nofuel

/-- The `main` pipeline on an already-decoded manifest document:
`load_yaml` then `generate_script`. -/
def distroscript (raw : List (String × List MCfg)) (os : OS) (fuel : Nat) : Out :=
  match loadPackages raw with
  | .error e => .err e
  | .ok m => generateScript m os fuel

end Distroscript

namespace Distroscript

instance : Inhabited Pkg := ⟨⟨"", .apt, emptyCfg none, [], [], []⟩⟩

/-- The state carried by a successful traversal result (`St.empty` otherwise):
lets a closed statement name the state a concrete run produces. -/
def resSt : Res → St
  | .ok st => st
  | _ => St.empty

/-- The loaded manifest of a raw manifest document (empty on a load error). -/
def loadedOf (raw : List (String × List MCfg)) : Mani :=
  (loadPackages raw).toOption.getD []

/-- A config mapping holding only a `type` tag and a `depends_on` list. -/
def depCfg (t : String) (deps : List DepEntry) : Cfg :=
  .mk (some t) none false (some deps) [] [] none none none none false none none

/-! ### Concrete manifests used by the claims -/

/-- `{"mytool": {"type": "snap", "packages": ["mytool"], "classic": true}}`. -/
def snapManifestRaw : List (String × List MCfg) :=
  [("mytool", [.tbl (.mk (some "snap") (some ["mytool"]) true none [] [] none none none none
    false none none)])]

/-- `{"curl": "apt", "htop": "apt"}`. -/
def aptPairRaw : List (String × List MCfg) := [("curl", [.str "apt"]), ("htop", [.str "apt"])]

/-- A direct mutual dependency cycle:
`{"a": {"type": "apt", "depends_on": ["b"]}, "b": {"type": "apt", "depends_on": ["a"]}}`. -/
def cycleRaw : List (String × List MCfg) :=
  [("a", [.tbl (depCfg "apt" [.nm "b"])]), ("b", [.tbl (depCfg "apt" [.nm "a"])])]

def cycleMani : Mani := loadedOf cycleRaw

/-- A manifest whose dependency edge crosses the merge policy:
`mypkg` (pip method, no explicit `depends_on`) implicitly depends on `pip`,
while the manifest's `pip` entry (apt method) declares `depends_on: [curl]`. -/
def hoistRaw : List (String × List MCfg) :=
  [("mypkg", [.tbl (.mk (some "pip") none false none [] [] none none none none false none none)]),
   ("pip", [.tbl (depCfg "apt" [.nm "curl"])])]

/-- `{"x": {"type": "apt", "depends_on": ["ghost"]}}`: `ghost` is not in the
manifest. -/
def ghostRaw : List (String × List MCfg) := [("x", [.tbl (depCfg "apt" [.nm "ghost"])])]

def ghostMani : Mani := loadedOf ghostRaw

/-- A diamond: `a` and `b` are siblings both depending on `c`. -/
def diamondRaw : List (String × List MCfg) :=
  [("a", [.tbl (depCfg "apt" [.nm "c"])]), ("b", [.tbl (depCfg "apt" [.nm "c"])]),
   ("c", [.str "apt"])]

def diamondMani : Mani := loadedOf diamondRaw

def cyclePkgA : Pkg := (resolve cycleMani OS.ubuntu "a").getD default

def cyclePkgB : Pkg := (resolve cycleMani OS.ubuntu "b").getD default

/-! ### A POSIX single-quote word parser (for the write-file round-trip claim)

`shellSplitWords` re-parses one emitted command line the way a POSIX shell
splits it into words: a single quote toggles quoting, a space outside quotes
separates words, any character between single quotes is literal. Outside
quotes only unproblematic plain characters are accepted (anything a shell
would treat specially yields `none`), so a `some` result really is the word
list a shell would produce. -/

def plainChar (c : Char) : Bool :=
  c.isAlphanum || c = '%' || c = '-' || c = '.' || c = '_' || c = '/'

def shellSplitAux : Bool → Option (List Char) → List Char → Option (List (List Char))
  | true, _, [] => none
  | false, none, [] => some []
  | false, some w, [] => some [w]
  | true, cur, c :: rest =>
      if c = '\'' then shellSplitAux false (some (cur.getD [])) rest
      else shellSplitAux true (some (cur.getD [] ++ [c])) rest
  | false, cur, c :: rest =>
      if c = '\'' then shellSplitAux true (some (cur.getD [])) rest
      else if c = ' ' then
        match cur with
        | none => shellSplitAux false none rest
        | some w => (shellSplitAux false none rest).map (w :: ·)
      else if plainChar c then shellSplitAux false (some (cur.getD [] ++ [c])) rest
      else none

def shellSplitWords (s : String) : Option (List String) :=
  (shellSplitAux false none s.data).map (·.map String.mk)

/-- Each argument followed by a newline, concatenated. -/
def catLines : List String → String
  | [] => ""
  | l :: ls => l ++ "\n" ++ catLines ls

/-- What running the parsed command writes: `printf '%s\n' a b c` prints each
argument followed by a newline, which `tee` writes to the destination. -/
def printfWrites (cmdLine : String) : Option String :=
  match shellSplitWords cmdLine with
  | some ("printf" :: fmt :: args) =>
      if fmt = "%s\\n" then some (catLines args) else none
  | _ => none

/-! ### Statement wrappers (closed statements for concrete runs) -/

/-- The direct mutual cycle never finishes: every fuel bound is exhausted. -/
def CycleDiverges : Prop :=
  ∀ fuel : Nat, distroscript cycleRaw OS.ubuntu fuel = Out.nofuel

/-- Loading the `type: snap` manifest fails for every fuel bound, so no
script (in particular not the two lines the spec expects) is ever produced. -/
def SnapManifestFails : Prop :=
  ∀ fuel : Nat, distroscript snapManifestRaw OS.fedora fuel =
    Out.err "Unknown package type: snap"

/-! ### Dependency edges, paths and the exactly-once bookkeeping -/

/-- `x` has a direct dependency edge to `y`: `x` resolves and `y` is a bare
name in its dependency list. -/
def edgeTo (m : Mani) (os : OS) (x y : String) : Prop :=
  ∃ P, resolve m os x = some P ∧ DepEntry.nm y ∈ P.dependencies

/-- A dependency path whose nodes (`l`, in order, from `x` to `z`) all avoid
the name list `bad` (in use: the already-installed set). -/
inductive Path (m : Mani) (os : OS) (bad : List String) : String → List String → String → Prop
  | refl (x : String) (hx : x ∉ bad) : Path m os bad x [x] x
  | step {x y z : String} {l : List String} (hx : x ∉ bad) (hxy : edgeTo m os x y)
      (h : Path m os bad y l z) : Path m os bad x (x :: l) z

/-- The entries of the two command streams carrying the tag of package
`nm`, in stream order (direct stream first, then merge list). -/
def tagged (nm : String) (st : St) : List Entry :=
  st.commands.filter (fun e => e.tag == Tag.pkg nm) ++
    st.toMerge.filter (fun e => e.tag == Tag.pkg nm)

/-- Every variant stored under a manifest name carries that name (true of
every manifest `load_yaml` builds). -/
def WellNamed (m : Mani) : Prop :=
  ∀ pr ∈ m, ∀ p ∈ pr.2, p.name = pr.1

/-- The single tagged block installing `nm`: its resolved variant's install
commands, tagged with `nm`. -/
def blockFor (m : Mani) (os : OS) (nm : String) : Option (List Entry) :=
  match resolve m os nm with
  | none => none
  | some P =>
    match emitInstall P os with
    | .error _ => none
    | .ok cmds => some (cmds.map (fun c => ⟨c, Tag.pkg nm⟩))

/-- The exactly-once invariant: a name outside the installed set has no
tagged entries, and any name's tagged entries are nothing or exactly its
single install block. -/
def InvOnce (m : Mani) (os : OS) (st : St) : Prop :=
  ∀ nm, (nm ∉ st.installed → tagged nm st = []) ∧
    (tagged nm st = [] ∨ blockFor m os nm = some (tagged nm st))

/-! ### Basic state-extension machinery

`install_package` only ever appends to the four command collections and
only ever adds names to the installed set; `Ext st st'` records this
relation between a state and any later state of the same run. -/

def Ext (st st' : St) : Prop :=
  (∃ a, st'.commands = st.commands ++ a) ∧ (∃ a, st'.toMerge = st.toMerge ++ a) ∧
  (∃ a, st'.prePre = st.prePre ++ a) ∧ (∃ a, st'.postApp = st.postApp ++ a) ∧
  (∀ x, x ∈ st.installed → x ∈ st'.installed)

theorem Ext.refl (st : St) : Ext st st :=
  ⟨⟨[], by simp⟩, ⟨[], by simp⟩, ⟨[], by simp⟩, ⟨[], by simp⟩, fun _ h => h⟩

theorem Ext.trans {s t u : St} (h1 : Ext s t) (h2 : Ext t u) : Ext s u := by
  obtain ⟨⟨a1, e1⟩, ⟨b1, f1⟩, ⟨c1, g1⟩, ⟨d1, i1⟩, j1⟩ := h1
  obtain ⟨⟨a2, e2⟩, ⟨b2, f2⟩, ⟨c2, g2⟩, ⟨d2, i2⟩, j2⟩ := h2
  exact ⟨⟨a1 ++ a2, by simp [e2, e1]⟩, ⟨b1 ++ b2, by simp [f2, f1]⟩,
    ⟨c1 ++ c2, by simp [g2, g1]⟩, ⟨d1 ++ d2, by simp [i2, i1]⟩,
    fun x hx => j2 x (j1 x hx)⟩

theorem Ext.mem_commands {s t : St} (h : Ext s t) {e : Entry} (he : e ∈ s.commands) :
    e ∈ t.commands := by
  obtain ⟨⟨a, ha⟩, _⟩ := h
  simp [ha, he]

theorem ext_routePre (p : Pkg) (st : St) : Ext st (routePre p st) := by
  unfold routePre
  by_cases h : p.config.dependsOn.isSome <;> simp [h, Ext]

theorem ext_routeInstall (p : Pkg) (cmds : List String) (st : St) :
    Ext st (routeInstall p cmds st) := by
  unfold routeInstall
  by_cases h : p.config.dependsOn.isSome <;> simp [h, Ext]

theorem ext_routePost (p : Pkg) (st : St) : Ext st (routePost p st) := by
  unfold routePost
  by_cases h : p.config.dependsOn.isSome <;> simp [h, Ext]

theorem ext_inlineAppend (tp : Pkg) (k : Nat) (cmds : List String) (st : St) :
    Ext st (inlineAppend tp k cmds st) := by
  simp [inlineAppend, Ext]

theorem ext_insert (st : St) (name : String) :
    Ext st { st with installed := st.installed.insert name } := by
  refine ⟨⟨[], by simp⟩, ⟨[], by simp⟩, ⟨[], by simp⟩, ⟨[], by simp⟩, fun x hx => ?_⟩
  simp [List.mem_insert_iff, hx]

theorem ext_guard (st : St) (d : String) :
    Ext st { st with commands := st.commands ++ [guardEntry d] } :=
  ⟨⟨[guardEntry d], rfl⟩, ⟨[], by simp⟩, ⟨[], by simp⟩, ⟨[], by simp⟩, fun _ hx => hx⟩

/-- Monotonicity of the dependency loop: with a step action that only
extends the state, a successful loop only extends the state. -/
theorem depsLoop_mono {m : Mani} {os : OS} {inst : String → St → Res}
    (hinst : ∀ n st st', inst n st = .ok st' → Ext st st') :
    ∀ (L : List DepEntry) (st st' : St), depsLoop m os inst L st = .ok st' → Ext st st' := by
  intro L
  induction L with
  | nil => intro st st' h; rw [depsLoop] at h; simp at h; simpa [← h] using Ext.refl st
  | cons dep rest ih =>
    intro st st' h
    match dep with
    | .nm d =>
      rw [depsLoop] at h
      cases hr : resolve m os d with
      | some p =>
        simp only [hr] at h
        cases hi : inst d st with
        | ok st1 =>
          simp only [hi] at h
          exact (hinst _ _ _ hi).trans (ih _ _ h)
        | err e => simp only [hi] at h; simp at h
        | nofuel => simp only [hi] at h; simp at h
      | none =>
        simp only [hr] at h
        exact (ext_guard st d).trans (ih _ _ h)
    | .inline cfg =>
      rw [depsLoop] at h
      cases hc : cfg.type? with
      | none => simp only [hc] at h; simp at h
      | some t =>
        simp only [hc] at h
        cases hk : createPackage ("inline_dep_" ++ toString st.commands.length) (.tbl cfg) with
        | error e => simp only [hk] at h; simp at h
        | ok tp =>
          simp only [hk] at h
          by_cases ha : isAvailable tp os
          · rw [if_pos ha] at h
            cases he : emitInstall tp os with
            | error e => simp only [he] at h; simp at h
            | ok cmds =>
              simp only [he] at h
              exact (ext_inlineAppend tp st.commands.length cmds st).trans (ih _ _ h)
          · rw [if_neg ha] at h
            exact ih _ _ h

/-- Monotonicity of `install_package`: a successful call only extends the
state. -/
theorem installPackage_mono (m : Mani) (os : OS) : ∀ (fuel : Nat) (name : String) (st st' : St),
    installPackage m os fuel name st = .ok st' → Ext st st' := by
  intro fuel
  induction fuel with
  | zero => intro name st st' h; simp [installPackage] at h
  | succ fuel ihf =>
    intro name st st' h
    rw [installPackage] at h
    by_cases hin : name ∈ st.installed
    · rw [if_pos hin] at h
      simp at h
      simpa [← h] using Ext.refl st
    · rw [if_neg hin] at h
      cases hr : resolve m os name with
      | none => simp only [hr] at h; simp at h; simpa [← h] using Ext.refl st
      | some p =>
        simp only [hr] at h
        cases hd : depsLoop m os (installPackage m os fuel) p.dependencies st with
        | ok st1 =>
          simp only [hd] at h
          cases he : emitInstall p os with
          | error e => simp only [he] at h; simp at h
          | ok cmds =>
            simp only [he] at h
            simp at h
            refine (depsLoop_mono ihf _ _ _ hd).trans ?_
            refine (ext_routePre p st1).trans ?_
            refine (ext_routeInstall p cmds _).trans ?_
            refine (ext_routePost p _).trans ?_
            rw [← h]
            exact ext_insert _ name
        | err e => simp only [hd] at h; simp at h
        | nofuel => simp only [hd] at h; simp at h

theorem installDeps_mono (m : Mani) (os : OS) (fuel : Nat) :
    ∀ (L : List DepEntry) (st st' : St), installDeps m os fuel L st = .ok st' → Ext st st' :=
  depsLoop_mono (installPackage_mono m os fuel)

/-! ### Step equations and inversion for the traversal -/

theorem deps_nil (m : Mani) (os : OS) (inst : String → St → Res) (st : St) :
    depsLoop m os inst [] st = .ok st := by
  rw [depsLoop]

theorem deps_cons_nm_some {m : Mani} {os : OS} {d : String} {p : Pkg}
    (h : resolve m os d = some p) (inst : String → St → Res) (rest : List DepEntry) (st : St) :
    depsLoop m os inst (.nm d :: rest) st =
      match inst d st with
      | .ok st1 => depsLoop m os inst rest st1
      | r => r := by
  rw [depsLoop]; simp only [h]

theorem deps_cons_nm_none {m : Mani} {os : OS} {d : String}
    (h : resolve m os d = none) (inst : String → St → Res) (rest : List DepEntry) (st : St) :
    depsLoop m os inst (.nm d :: rest) st =
      depsLoop m os inst rest { st with commands := st.commands ++ [guardEntry d] } := by
  rw [depsLoop]; simp only [h]

theorem deps_cons_nm_some_ok {m : Mani} {os : OS} {d : String} {p : Pkg}
    {inst : String → St → Res} {rest : List DepEntry} {st st' : St}
    (h : resolve m os d = some p)
    (hok : depsLoop m os inst (.nm d :: rest) st = .ok st') :
    ∃ st1, inst d st = .ok st1 ∧ depsLoop m os inst rest st1 = .ok st' := by
  rw [deps_cons_nm_some h] at hok
  cases hi : inst d st with
  | ok st1 => rw [hi] at hok; exact ⟨st1, rfl, hok⟩
  | err e => rw [hi] at hok; simp at hok
  | nofuel => rw [hi] at hok; simp at hok

/-- Full inversion of a successful `install_package` call. -/
theorem install_ok_cases {m : Mani} {os : OS} {fuel : Nat} {name : String} {st st' : St}
    (h : installPackage m os fuel name st = .ok st') :
    (name ∈ st.installed ∧ st' = st) ∨
    (name ∉ st.installed ∧ resolve m os name = none ∧ st' = st) ∨
    (∃ f P st1 cmds, fuel = f + 1 ∧ name ∉ st.installed ∧ resolve m os name = some P ∧
      installDeps m os f P.dependencies st = .ok st1 ∧ emitInstall P os = .ok cmds ∧
      st' = emitPhase P name cmds st1) := by
  cases fuel with
  | zero => simp [installPackage] at h
  | succ f =>
    rw [installPackage] at h
    by_cases hin : name ∈ st.installed
    · rw [if_pos hin] at h
      simp at h
      exact Or.inl ⟨hin, h.symm⟩
    · rw [if_neg hin] at h
      cases hr : resolve m os name with
      | none =>
        simp only [hr] at h; simp at h
        exact Or.inr (Or.inl ⟨hin, rfl, h.symm⟩)
      | some P =>
        simp only [hr] at h
        cases hd : depsLoop m os (installPackage m os f) P.dependencies st with
        | ok st1 =>
          simp only [hd] at h
          cases he : emitInstall P os with
          | error e => simp only [he] at h; simp at h
          | ok cmds =>
            simp only [he] at h; simp at h
            exact Or.inr (Or.inr ⟨f, P, st1, cmds, rfl, hin, rfl, hd, he,
              by rw [← h]; rfl⟩)
        | err e => simp only [hd] at h; simp at h
        | nofuel => simp only [hd] at h; simp at h

/-- The forward direction: assembling a successful call from its parts. -/
theorem install_ok_build {m : Mani} {os : OS} {f : Nat} {name : String} {st st1 : St}
    {P : Pkg} {cmds : List String} (hin : name ∉ st.installed)
    (hr : resolve m os name = some P) (hd : installDeps m os f P.dependencies st = .ok st1)
    (he : emitInstall P os = .ok cmds) :
    installPackage m os (f + 1) name st = .ok (emitPhase P name cmds st1) := by
  rw [installPackage, if_neg hin]
  simp only [hr]
  rw [installDeps] at hd
  simp only [hd, he]
  rfl

theorem install_mem_installed {m : Mani} {os : OS} {fuel : Nat} {name : String} {st st' : St}
    (h : installPackage m os fuel name st = .ok st') (hr : (resolve m os name).isSome) :
    name ∈ st'.installed := by
  rcases install_ok_cases h with ⟨hin, rfl⟩ | ⟨_, hnone, rfl⟩ | ⟨f, P, st1, cmds, _, _, _, _, _, rfl⟩
  · exact hin
  · rw [hnone] at hr; simp at hr
  · simp [emitPhase, List.mem_insert_iff]

theorem emitPhase_installed (P : Pkg) (name : String) (cmds : List String) (st1 : St) :
    (emitPhase P name cmds st1).installed = st1.installed.insert name := by
  cases hp : P.config.dependsOn.isSome <;>
    simp [emitPhase, routePost, routeInstall, routePre, hp]

/-! ### Claim C8: unresolvable dependencies degrade to a runtime guard -/

/-- If a successful dependency loop contained an unresolvable bare name, the
guard line for it is in the resulting command stream. -/
theorem guard_of_unresolvable {m : Mani} {os : OS} {inst : String → St → Res}
    (hinst : ∀ n st st', inst n st = .ok st' → Ext st st') :
    ∀ {L : List DepEntry} {st st' : St}, depsLoop m os inst L st = .ok st' →
    ∀ d, DepEntry.nm d ∈ L → resolve m os d = none → guardEntry d ∈ st'.commands := by
  intro L
  induction L with
  | nil => intro st st' h d hd; simp at hd
  | cons dep rest ih =>
    intro st st' h d hd
    match dep with
    | .nm d0 =>
      rcases List.mem_cons.mp hd with heq | hmem
      · cases heq
        cases hr : resolve m os d with
        | some p => intro hnone; cases hnone
        | none =>
          intro _
          rw [deps_cons_nm_none hr] at h
          have hmem0 : guardEntry d ∈ (st.commands ++ [guardEntry d]) := by simp
          exact (depsLoop_mono hinst _ _ _ h).mem_commands hmem0
      · intro hnone
        cases hr : resolve m os d0 with
        | some p =>
          obtain ⟨st1, _, h2⟩ := deps_cons_nm_some_ok hr h
          exact ih h2 d hmem hnone
        | none =>
          rw [deps_cons_nm_none hr] at h
          exact ih h d hmem hnone
    | .inline cfg =>
      intro hnone
      have hmem : DepEntry.nm d ∈ rest := by
        rcases List.mem_cons.mp hd with heq | hmem
        · cases heq
        · exact hmem
      rw [depsLoop] at h
      cases hc : cfg.type? with
      | none => simp only [hc] at h; simp at h
      | some t =>
        simp only [hc] at h
        cases hk : createPackage ("inline_dep_" ++ toString st.commands.length) (.tbl cfg) with
        | error e => simp only [hk] at h; simp at h
        | ok tp =>
          simp only [hk] at h
          by_cases ha : isAvailable tp os
          · rw [if_pos ha] at h
            cases he : emitInstall tp os with
            | error e => simp only [he] at h; simp at h
            | ok cmds =>
              simp only [he] at h
              exact ih h d hmem hnone
          · rw [if_neg ha] at h
            exact ih h d hmem hnone

/-- Claim C8: a named dependency with no applicable Resolved Package does not
fail generation; the loop appends the runtime existence-guard line
`which d || { warn; fail }` and continues, and any successful installation of
a package with such a dependency leaves that guard line in its command
stream. -/
theorem C8_thm :
    (∀ (m : Mani) (os : OS) (fuel : Nat) (d : String) (rest : List DepEntry) (st : St),
      resolve m os d = none →
      installDeps m os fuel (.nm d :: rest) st =
        installDeps m os fuel rest { st with commands := st.commands ++ [guardEntry d] }) ∧
    (∀ (m : Mani) (os : OS) (fuel : Nat) (name : String) (st st' : St) (p : Pkg),
      installPackage m os fuel name st = .ok st' → name ∉ st.installed →
      resolve m os name = some p → ∀ d, DepEntry.nm d ∈ p.dependencies →
      resolve m os d = none → guardEntry d ∈ st'.commands) := by
  constructor
  · intro m os fuel d rest st h
    rw [installDeps]
    exact deps_cons_nm_none h _ rest st
  · intro m os fuel name st st' p h hin hr d hd hnone
    rcases install_ok_cases h with ⟨hin', _⟩ | ⟨_, hnone', _⟩ | ⟨f, P, st1, cmds, _, _, hr', hdeps, _, hst⟩
    · exact absurd hin' hin
    · rw [hnone'] at hr; simp at hr
    · rw [hr'] at hr
      cases hr
      rw [installDeps] at hdeps
      have h1 : guardEntry d ∈ st1.commands :=
        guard_of_unresolvable (installPackage_mono m os f) hdeps d hd hnone
      have h2 : Ext st1 st' := by
        rw [hst]
        refine (ext_routePre p st1).trans ?_
        refine (ext_routeInstall p cmds _).trans ?_
        refine (ext_routePost p _).trans (ext_insert _ name)
      exact h2.mem_commands h1

/-- Witness for C8 on the concrete `ghost` manifest. -/
theorem C8_wit :
    guardEntry "ghost" ∈ (resSt (installPackage ghostMani OS.ubuntu 3 "x" St.empty)).commands :=
  C8_thm.2 ghostMani OS.ubuntu 3 "x" St.empty
    (resSt (installPackage ghostMani OS.ubuntu 3 "x" St.empty))
    ((resolve ghostMani OS.ubuntu "x").getD default) rfl (by simp [St.empty]) rfl
    "ghost" (List.mem_cons_self _ _) rfl

/-! ### Claim C2: the `type: snap` example manifest -/

/-- Counterexample to C2: for the manifest
`{"mytool": {"type": "snap", "packages": ["mytool"], "classic": true}}` and
target fedora, generation produces no script at all: `snap` is not a
registered package tag, so loading fails for every fuel bound. -/
theorem C2_cex : SnapManifestFails := fun _ => rfl

/-- Amended C2: for the `type: snap` manifest the pipeline fails fast (for
both target OSes and any fuel) with the configuration error
`Unknown package type: snap`; no install line is emitted. -/
theorem C2_thm : ∀ (os : OS) (fuel : Nat),
    distroscript snapManifestRaw os fuel = Out.err "Unknown package type: snap" :=
  fun _ _ => rfl

/-! ### Claim C1: a direct mutual dependency cycle never terminates -/

/-- Neither member of the `a`/`b` cycle can ever be installed: from any state
in which neither is marked installed, both calls exhaust any fuel, because a
name is added to the installed set only after its dependencies have been
processed, so neither call ever short-circuits. -/
theorem cycle_blocked : ∀ (fuel : Nat) (st : St), "a" ∉ st.installed → "b" ∉ st.installed →
    installPackage cycleMani OS.ubuntu fuel "a" st = .nofuel ∧
    installPackage cycleMani OS.ubuntu fuel "b" st = .nofuel := by
  intro fuel
  induction fuel with
  | zero => exact fun st _ _ => ⟨rfl, rfl⟩
  | succ fuel ih =>
    intro st ha hb
    constructor
    · rw [installPackage, if_neg ha]
      have h1 : resolve cycleMani OS.ubuntu "a" = some cyclePkgA := rfl
      simp only [h1]
      have h2 : cyclePkgA.dependencies = [DepEntry.nm "b"] := rfl
      rw [h2, deps_cons_nm_some (show resolve cycleMani OS.ubuntu "b" = some cyclePkgB from rfl)]
      simp only [(ih st ha hb).2]
    · rw [installPackage, if_neg hb]
      have h1 : resolve cycleMani OS.ubuntu "b" = some cyclePkgB := rfl
      simp only [h1]
      have h2 : cyclePkgB.dependencies = [DepEntry.nm "a"] := rfl
      rw [h2, deps_cons_nm_some (show resolve cycleMani OS.ubuntu "a" = some cyclePkgA from rfl)]
      simp only [(ih st ha hb).1]

/-- Counterexample to C1: for the two-package mutual cycle the whole pipeline
exhausts every fuel bound — the recursion of `install_package` is unbounded
and no script is ever produced (the Python source recurses until the
interpreter's recursion limit). -/
theorem C1_cex : CycleDiverges := by
  intro fuel
  have h0 : distroscript cycleRaw OS.ubuntu fuel = generateScript cycleMani OS.ubuntu fuel := rfl
  rw [h0, generateScript]
  have h1 : generateSt cycleMani OS.ubuntu fuel =
      installAll cycleMani OS.ubuntu fuel ["a", "b"] St.empty := rfl
  rw [h1, installAll]
  have hA : "a" ∉ St.empty.installed := by simp [St.empty]
  have hB : "b" ∉ St.empty.installed := by simp [St.empty]
  have h2 : (resolve cycleMani OS.ubuntu "a").isSome = true := rfl
  simp only [h2, if_true, (cycle_blocked fuel St.empty hA hB).1]

/-! ### Claim C6: the universal-manager self-dependency guard -/

/-- Constructing the snapd manager package itself always raises: its implicit
dependency computation refuses `snapd` depending on `snapd` (and any earlier
hook-parsing failure is also a configuration error). -/
theorem snapd_self_error : ∀ cfg : Cfg, cfg.type?.getD "snapd" = "snapd" →
    ∃ e, createPackage "snapd" (.tbl cfg) = .error e := by
  intro cfg ht
  cases h1 : parseScripts cfg.preInstall with
  | error e => exact ⟨e, by simp [createPackage, ht, h1, Bind.bind, Except.bind, Except.instMonad, show registryLookup "snapd" = some PType.snapd from rfl, show registryLookup "pip" = some PType.pip from rfl]⟩
  | ok l1 =>
    cases h2 : parseScripts cfg.postInstall with
    | error e => exact ⟨e, by simp [createPackage, ht, h1, h2, Bind.bind, Except.bind, Except.instMonad, show registryLookup "snapd" = some PType.snapd from rfl, show registryLookup "pip" = some PType.pip from rfl]⟩
    | ok l2 =>
      exact ⟨"snapd cannot depend on snapd",
        by simp [createPackage, ht, h1, h2, implicitDeps, Bind.bind, Except.bind, Except.instMonad, show registryLookup "snapd" = some PType.snapd from rfl, show registryLookup "pip" = some PType.pip from rfl]⟩

/-- Same guard for the pip manager package. -/
theorem pip_self_error : ∀ cfg : Cfg, cfg.type?.getD "pip" = "pip" →
    ∃ e, createPackage "pip" (.tbl cfg) = .error e := by
  intro cfg ht
  cases h1 : parseScripts cfg.preInstall with
  | error e => exact ⟨e, by simp [createPackage, ht, h1, Bind.bind, Except.bind, Except.instMonad, show registryLookup "snapd" = some PType.snapd from rfl, show registryLookup "pip" = some PType.pip from rfl]⟩
  | ok l1 =>
    cases h2 : parseScripts cfg.postInstall with
    | error e => exact ⟨e, by simp [createPackage, ht, h1, h2, Bind.bind, Except.bind, Except.instMonad, show registryLookup "snapd" = some PType.snapd from rfl, show registryLookup "pip" = some PType.pip from rfl]⟩
    | ok l2 =>
      exact ⟨"pip cannot depend on pip",
        by simp [createPackage, ht, h1, h2, implicitDeps, Bind.bind, Except.bind, Except.instMonad, show registryLookup "snapd" = some PType.snapd from rfl, show registryLookup "pip" = some PType.pip from rfl]⟩

/-- A successful `load_yaml` implies every method spec of every entry
constructed successfully. -/
theorem createAll_ok_all : ∀ (name : String) (ms : List MCfg) (vars : List Pkg),
    createAll name ms = .ok vars → ∀ mc ∈ ms, ∃ pk, createPackage name mc = .ok pk := by
  intro name ms
  induction ms with
  | nil => intro vars _ mc hmc; simp at hmc
  | cons c cs ihc =>
    intro vars hv mc hmc
    rw [createAll] at hv
    cases hc : createPackage name c with
    | error e => simp [hc, Bind.bind, Except.bind] at hv
    | ok pk =>
      rcases List.mem_cons.mp hmc with rfl | hmc2
      · exact ⟨pk, hc⟩
      · simp only [hc, Bind.bind, Except.bind] at hv
        cases hcs : createAll name cs with
        | error e => simp [hcs] at hv
        | ok pks => exact ihc pks hcs mc hmc2

theorem load_ok_all : ∀ (raw : List (String × List MCfg)) (m : Mani),
    loadPackages raw = .ok m → ∀ p ∈ raw, ∀ mc ∈ p.2, ∃ pk, createPackage p.1 mc = .ok pk := by
  intro raw
  induction raw with
  | nil => intro m _ p hp; simp at hp
  | cons hd rest ih =>
    intro m h p hp mc hmc
    rw [loadPackages] at h
    cases hv : createAll hd.1 hd.2 with
    | error e => simp [hv, Bind.bind, Except.bind] at h
    | ok vars =>
      simp only [hv, Bind.bind, Except.bind] at h
      cases hrest : loadPackages rest with
      | error e => simp [hrest] at h
      | ok m2 =>
        rcases List.mem_cons.mp hp with rfl | hmem
        · exact createAll_ok_all p.1 p.2 vars hv mc hmc
        · exact ih m2 hrest p hmem mc hmc

/-- Claim C6: a manifest entry for the universal-manager package itself
(`snapd` with a snapd-type method, `pip` with a pip-type method — whose
implicit dependency would be a self-dependency) makes generation fail fast
with a configuration error during loading, for every target OS and every
fuel bound: no command is emitted and no recursion takes place. -/
theorem C6_thm :
    (∀ cfg : Cfg, cfg.type?.getD "snapd" = "snapd" →
      ∃ e, createPackage "snapd" (.tbl cfg) = .error e) ∧
    (∀ cfg : Cfg, cfg.type?.getD "pip" = "pip" →
      ∃ e, createPackage "pip" (.tbl cfg) = .error e) ∧
    (createPackage "snapd" (.str "snapd") = .error "snapd cannot depend on snapd") ∧
    (createPackage "pip" (.str "pip") = .error "pip cannot depend on pip") ∧
    (∀ (raw : List (String × List MCfg)) (ms : List MCfg) (cfg : Cfg),
      ("snapd", ms) ∈ raw → MCfg.tbl cfg ∈ ms → cfg.type?.getD "snapd" = "snapd" →
      ∃ e, loadPackages raw = .error e ∧
        ∀ (os : OS) (fuel : Nat), distroscript raw os fuel = .err e) ∧
    (∀ (raw : List (String × List MCfg)) (ms : List MCfg) (cfg : Cfg),
      ("pip", ms) ∈ raw → MCfg.tbl cfg ∈ ms → cfg.type?.getD "pip" = "pip" →
      ∃ e, loadPackages raw = .error e ∧
        ∀ (os : OS) (fuel : Nat), distroscript raw os fuel = .err e) := by
  refine ⟨snapd_self_error, pip_self_error, rfl, rfl, ?_, ?_⟩
  · intro raw ms cfg hraw hms ht
    cases hl : loadPackages raw with
    | ok m =>
      obtain ⟨pk, hpk⟩ := load_ok_all raw m hl ("snapd", ms) hraw (.tbl cfg) hms
      obtain ⟨e, he⟩ := snapd_self_error cfg ht
      rw [hpk] at he
      cases he
    | error e =>
      exact ⟨e, rfl, fun os fuel => by simp [distroscript, hl]⟩
  · intro raw ms cfg hraw hms ht
    cases hl : loadPackages raw with
    | ok m =>
      obtain ⟨pk, hpk⟩ := load_ok_all raw m hl ("pip", ms) hraw (.tbl cfg) hms
      obtain ⟨e, he⟩ := pip_self_error cfg ht
      rw [hpk] at he
      cases he
    | error e =>
      exact ⟨e, rfl, fun os fuel => by simp [distroscript, hl]⟩

/-- Witness for C6: a manifest declaring the snapd manager through its own
method tag is rejected at load time. -/
theorem C6_wit :
    ∃ e, loadPackages [("snapd", [MCfg.tbl (emptyCfg (some "snapd"))])] = .error e ∧
      ∀ (os : OS) (fuel : Nat),
        distroscript [("snapd", [MCfg.tbl (emptyCfg (some "snapd"))])] os fuel = .err e :=
  C6_thm.2.2.2.2.1 [("snapd", [.tbl (emptyCfg (some "snapd"))])] [.tbl (emptyCfg (some "snapd"))]
    (emptyCfg (some "snapd")) (List.mem_cons_self _ _) (List.mem_cons_self _ _) rfl

/-! ### Claim C10: a missing `type` field falls back to the package name -/

theorem setType_type? (c : Cfg) (t : String) : (c.setType t).type? = some t := by
  cases c; rfl

theorem setType_preInstall (c : Cfg) (t : String) : (c.setType t).preInstall = c.preInstall := by
  cases c; rfl

theorem setType_postInstall (c : Cfg) (t : String) : (c.setType t).postInstall = c.postInstall := by
  cases c; rfl

theorem setType_dependsOn (c : Cfg) (t : String) : (c.setType t).dependsOn = c.dependsOn := by
  cases c; rfl

theorem setType_setType (c : Cfg) (t u : String) : (c.setType t).setType u = c.setType u := by
  cases c; rfl

/-- A string whose first character is not `U` is not an unknown-package-type
message. -/
theorem ne_upt (s : String) (c : Char) (hc : s.data[0]? = some c) (hne : c ≠ 'U') :
    ∀ name, s ≠ "Unknown package type: " ++ name := by
  intro name h
  apply hne
  have h0 : s.data[0]? = ("Unknown package type: " ++ name).data[0]? := by rw [h]
  rw [String.data_append, List.getElem?_append_left (by decide), hc] at h0
  have h1 : ("Unknown package type: ").data[0]? = some 'U' := rfl
  rw [h1] at h0
  exact Option.some.inj h0

/-- Unknown-script-type messages differ from unknown-package-type messages
(they disagree at the ninth character). -/
theorem ust_ne_upt (t name : String) :
    "Unknown script type: " ++ t ≠ "Unknown package type: " ++ name := by
  intro h
  have h0 : ("Unknown script type: " ++ t).data[8]? =
      ("Unknown package type: " ++ name).data[8]? := by rw [h]
  rw [String.data_append, String.data_append, List.getElem?_append_left (by decide),
    List.getElem?_append_left (by decide)] at h0
  exact absurd h0 (by decide)

/-- The configuration errors `create_script` can raise. -/
theorem createScript_err {c : ScriptCfg} {e : String} (h : createScript c = .error e) :
    e = "KeyError: 'script'" ∨ e = "KeyError: 'destination'" ∨ e = "KeyError: 'content'" ∨
    ∃ t, e = "Unknown script type: " ++ t := by
  match c with
  | .lit s => simp [createScript] at h
  | .tbl ty sc d co su =>
    simp only [createScript] at h
    by_cases h1 : ty.getD "bash" = "bash"
    · rw [if_pos h1] at h
      cases sc with
      | some s => simp at h
      | none => simp at h; exact Or.inl h.symm
    · rw [if_neg h1] at h
      by_cases h2 : ty.getD "bash" = "tee"
      · rw [if_pos h2] at h
        cases d with
        | none => simp at h; exact Or.inr (Or.inl h.symm)
        | some d0 =>
          cases co with
          | none => simp at h; exact Or.inr (Or.inr (Or.inl h.symm))
          | some c0 => simp at h
      · rw [if_neg h2] at h
        simp at h
        exact Or.inr (Or.inr (Or.inr ⟨ty.getD "bash", h.symm⟩))

/-- The configuration errors hook-list parsing can raise. -/
theorem parseScripts_err : ∀ {l : List ScriptCfg} {e : String}, parseScripts l = .error e →
    e = "KeyError: 'script'" ∨ e = "KeyError: 'destination'" ∨ e = "KeyError: 'content'" ∨
    ∃ t, e = "Unknown script type: " ++ t := by
  intro l
  induction l with
  | nil => intro e h; simp [parseScripts] at h
  | cons c cs ih =>
    intro e h
    rw [parseScripts] at h
    cases hc : createScript c with
    | error e0 =>
      simp only [hc, Bind.bind, Except.bind] at h
      cases h
      exact createScript_err hc
    | ok s =>
      simp only [hc, Bind.bind, Except.bind] at h
      cases hcs : parseScripts cs with
      | error e0 =>
        rw [hcs] at h
        cases h
        exact ih hcs
      | ok l0 => rw [hcs] at h; simp at h

/-- The configuration errors the implicit-dependency computation can raise. -/
theorem implicitDeps_err {pt : PType} {n : String} {e : String}
    (h : implicitDeps pt n = .error e) :
    e = "snapd cannot depend on snapd" ∨ e = "pip cannot depend on pip" := by
  cases pt with
  | snapd =>
    simp only [implicitDeps] at h
    split at h
    · cases h
    · exact Or.inl (Except.error.inj h).symm
  | pip =>
    simp only [implicitDeps] at h
    split at h
    · cases h
    · exact Or.inr (Except.error.inj h).symm
  | zsh => simp [implicitDeps] at h
  | dnf => simp [implicitDeps] at h
  | apt => simp [implicitDeps] at h
  | deb => simp [implicitDeps] at h
  | flatpak => simp [implicitDeps] at h
  | github => simp [implicitDeps] at h
  | file => simp [implicitDeps] at h
  | tarball => simp [implicitDeps] at h
  | bash => simp [implicitDeps] at h

/-- Claim C10: when a method-spec mapping has no `type` field, the factory
uses the package's own name as the tag — the result is the same as if
`type: name` had been written — and the unknown-package-type configuration
error is raised exactly when the name is not a registered tag; a missing
`type` field is never itself an error. -/
theorem C10_thm : ∀ (name : String) (cfg : Cfg), cfg.type? = none →
    (createPackage name (.tbl cfg) = createPackage name (.tbl (cfg.setType name))) ∧
    (createPackage name (.tbl cfg) = .error ("Unknown package type: " ++ name) ↔
      registryLookup name = none) := by
  intro name cfg ht
  have e1 : cfg.type?.getD name = name := by rw [ht]; rfl
  constructor
  · simp only [createPackage, e1, setType_type?, Option.getD_some, setType_preInstall,
      setType_postInstall, setType_dependsOn, setType_setType]
  · constructor
    · intro h
      cases hreg : registryLookup name with
      | none => rfl
      | some pt =>
        exfalso
        simp only [createPackage, e1, hreg] at h
        cases h1 : parseScripts cfg.preInstall with
        | error e0 =>
          simp only [h1, Bind.bind, Except.bind] at h
          cases h
          rcases parseScripts_err h1 with h3 | h3 | h3 | ⟨t, h3⟩
          · exact ne_upt "KeyError: 'script'" 'K' rfl (by decide) name h3.symm
          · exact ne_upt "KeyError: 'destination'" 'K' rfl (by decide) name h3.symm
          · exact ne_upt "KeyError: 'content'" 'K' rfl (by decide) name h3.symm
          · exact ust_ne_upt t name h3.symm
        | ok l1 =>
          simp only [h1, Bind.bind, Except.bind] at h
          cases h2 : parseScripts cfg.postInstall with
          | error e0 =>
            rw [h2] at h
            cases h
            rcases parseScripts_err h2 with h3 | h3 | h3 | ⟨t, h3⟩
            · exact ne_upt "KeyError: 'script'" 'K' rfl (by decide) name h3.symm
            · exact ne_upt "KeyError: 'destination'" 'K' rfl (by decide) name h3.symm
            · exact ne_upt "KeyError: 'content'" 'K' rfl (by decide) name h3.symm
            · exact ust_ne_upt t name h3.symm
          | ok l2 =>
            rw [h2] at h
            cases h3 : implicitDeps pt name with
            | error e0 =>
              rw [h3] at h
              cases h
              rcases implicitDeps_err h3 with h4 | h4
              · exact ne_upt "snapd cannot depend on snapd" 's' rfl (by decide) name h4.symm
              · exact ne_upt "pip cannot depend on pip" 'p' rfl (by decide) name h4.symm
            | ok imp => rw [h3] at h; simp at h
    · intro hnone
      simp [createPackage, e1, hnone]

/-- Witness for C10: an entry named `flatpak` whose mapping has no `type`
resolves through its own name, which is a registered tag. -/
theorem C10_wit :
    (createPackage "flatpak" (.tbl (emptyCfg none)) =
      createPackage "flatpak" (.tbl ((emptyCfg none).setType "flatpak"))) ∧
    (createPackage "flatpak" (.tbl (emptyCfg none)) =
        .error ("Unknown package type: " ++ "flatpak") ↔
      registryLookup "flatpak" = none) :=
  C10_thm "flatpak" (emptyCfg none) rfl

/-! ### C4: the write-file (tee) round trip -/

theorem str_ext {a b : String} (h : a.data = b.data) : a = b := by
  cases a; cases b; cases h; rfl

theorem mk_data (s : String) : String.mk s.data = s := by cases s; rfl

theorem aux_in_quote : ∀ (w : List Char) (cur : List Char) (rest : List Char),
    (∀ c ∈ w, c ≠ '\'') →
    shellSplitAux true (some cur) (w ++ '\'' :: rest) =
      shellSplitAux false (some (cur ++ w)) rest := by
  intro w
  induction w with
  | nil => intro cur rest _; simp [shellSplitAux]
  | cons c w ih =>
    intro cur rest h
    have hc : c ≠ '\'' := h c (List.mem_cons_self _ _)
    rw [List.cons_append, shellSplitAux, if_neg hc]
    have := ih (cur ++ [c]) rest (fun x hx => h x (List.mem_cons_of_mem _ hx))
    simp only [Option.getD_some] at this ⊢
    rw [this, List.append_assoc]
    rfl

theorem flush_space (w : List Char) (rest : List Char) :
    shellSplitAux false (some w) (' ' :: rest) =
      (shellSplitAux false none rest).map (w :: ·) := by
  rw [shellSplitAux]
  simp

theorem step_plain {c : Char} (hq : c ≠ '\'') (hs : c ≠ ' ') (hp : plainChar c = true)
    (cur : Option (List Char)) (rest : List Char) :
    shellSplitAux false cur (c :: rest) = shellSplitAux false (some (cur.getD [] ++ [c])) rest := by
  cases cur <;> rw [shellSplitAux, if_neg hq, if_neg hs, if_pos hp]

theorem step_openq (cur : Option (List Char)) (rest : List Char) :
    shellSplitAux false cur ('\'' :: rest) = shellSplitAux true (some (cur.getD [])) rest := by
  cases cur <;> rw [shellSplitAux, if_pos rfl]

theorem aux_plain_word : ∀ (w : List Char) (cur : List Char) (rest : List Char),
    (∀ c ∈ w, plainChar c ∧ c ≠ '\'' ∧ c ≠ ' ') →
    shellSplitAux false (some cur) (w ++ rest) = shellSplitAux false (some (cur ++ w)) rest := by
  intro w
  induction w with
  | nil => intro cur rest _; simp
  | cons c w ih =>
    intro cur rest h
    obtain ⟨hp, hq, hs⟩ := h c (List.mem_cons_self _ _)
    rw [List.cons_append, step_plain hq hs hp]
    have := ih (cur ++ [c]) rest (fun x hx => h x (List.mem_cons_of_mem _ hx))
    simp only [Option.getD_some] at this ⊢
    rw [this, List.append_assoc]
    rfl

theorem printf_head (rest : List Char) :
    shellSplitAux false none (("printf '%s\\n' ").data ++ rest) =
      (shellSplitAux false none rest).map (fun l => ("printf").data :: ("%s\\n").data :: l) := by
  rw [show ("printf '%s\\n' ").data ++ rest =
    'p' :: (['r','i','n','t','f'] ++ (' ' :: ('\'' :: (['%','s','\\','n'] ++ ('\'' :: (' ' :: rest)))))) from rfl]
  rw [step_plain (by decide) (by decide) (by decide)]
  rw [aux_plain_word _ _ _ (by decide)]
  rw [show (Option.getD none [] ++ ['p'] ++ ['r','i','n','t','f']) = ("printf").data from rfl]
  rw [flush_space]
  rw [step_openq]
  rw [aux_in_quote _ _ _ (by decide)]
  rw [show (Option.getD none [] ++ ['%','s','\\','n']) = ("%s\\n").data from rfl]
  rw [flush_space]
  cases shellSplitAux false none rest <;> rfl

theorem quote_data (w : String) : ("'" ++ w ++ "'").data = '\'' :: (w.data ++ ['\'']) := by
  simp [String.data_append]

theorem aux_join : ∀ (ws : List String), (∀ w ∈ ws, ∀ c ∈ w.data, c ≠ '\'') →
    shellSplitAux false none (joinSp (ws.map (fun l => "'" ++ l ++ "'"))).data =
      some (ws.map (·.data)) := by
  intro ws
  induction ws with
  | nil => intro _; rfl
  | cons w rest ih =>
    intro h
    have hw : ∀ c ∈ w.data, c ≠ '\'' := h w (List.mem_cons_self _ _)
    have hrest : ∀ x ∈ rest, ∀ c ∈ x.data, c ≠ '\'' := fun x hx => h x (List.mem_cons_of_mem _ hx)
    cases rest with
    | nil =>
      rw [show ([w].map (fun l => "'" ++ l ++ "'")) = ["'" ++ w ++ "'"] from rfl]
      rw [show joinSp ["'" ++ w ++ "'"] = "'" ++ w ++ "'" from rfl]
      rw [quote_data]
      rw [step_openq]
      rw [show w.data ++ ['\''] = w.data ++ '\'' :: [] from rfl]
      rw [aux_in_quote _ _ _ hw]
      rfl
    | cons w2 rest2 =>
      rw [show ((w :: w2 :: rest2).map (fun l => "'" ++ l ++ "'")) =
        ("'" ++ w ++ "'") :: ((w2 :: rest2).map (fun l => "'" ++ l ++ "'")) from rfl]
      rw [show joinSp (("'" ++ w ++ "'") :: ((w2 :: rest2).map (fun l => "'" ++ l ++ "'"))) =
        ("'" ++ w ++ "'") ++ " " ++ joinSp ((w2 :: rest2).map (fun l => "'" ++ l ++ "'")) from by
          rw [List.map_cons]; rw [joinSp]]
      rw [String.data_append, String.data_append, quote_data]
      rw [show ((('\'' :: (w.data ++ ['\''])) ++ (" ").data) ++
          (joinSp ((w2 :: rest2).map (fun l => "'" ++ l ++ "'"))).data) =
        '\'' :: (w.data ++ '\'' :: ' ' ::
          (joinSp ((w2 :: rest2).map (fun l => "'" ++ l ++ "'"))).data) from by simp]
      rw [step_openq]
      rw [show w.data ++ '\'' :: ' ' :: (joinSp ((w2 :: rest2).map (fun l => "'" ++ l ++ "'"))).data
        = w.data ++ '\'' :: (' ' :: (joinSp ((w2 :: rest2).map (fun l => "'" ++ l ++ "'"))).data)
        from rfl]
      rw [aux_in_quote _ _ _ hw]
      simp only [Option.getD_none, List.nil_append]
      rw [flush_space, ih hrest]
      rfl

theorem splitCharsOn_ne_nil (sep : Char) : ∀ l : List Char, splitCharsOn sep l ≠ [] := by
  intro l
  cases l with
  | nil => simp [splitCharsOn]
  | cons c rest =>
    rw [splitCharsOn]
    cases splitCharsOn sep rest with
    | nil => simp
    | cons w ws =>
      by_cases hc : c = sep <;> simp [hc]

theorem mem_splitCharsOn (sep : Char) :
    ∀ (l g : List Char), g ∈ splitCharsOn sep l → ∀ c ∈ g, c ∈ l := by
  intro l
  induction l with
  | nil =>
    intro g hg c hc
    simp [splitCharsOn] at hg
    subst hg
    cases hc
  | cons a rest ih =>
    intro g hg c hc
    cases h : splitCharsOn sep rest with
    | nil => exact absurd h (splitCharsOn_ne_nil sep rest)
    | cons w ws =>
      by_cases ha : a = sep
      · simp only [splitCharsOn, h, if_pos ha] at hg
        rcases List.mem_cons.mp hg with h1 | h2
        · subst h1; cases hc
        · exact List.mem_cons_of_mem _ (ih g (h ▸ h2) c hc)
      · simp only [splitCharsOn, h, if_neg ha] at hg
        rcases List.mem_cons.mp hg with h1 | h2
        · subst h1
          rcases List.mem_cons.mp hc with h1 | h2
          · exact h1 ▸ List.mem_cons_self _ _
          · exact List.mem_cons_of_mem _ (ih w (h ▸ List.mem_cons_self _ _) c h2)
        · exact List.mem_cons_of_mem _ (ih g (h ▸ List.mem_cons_of_mem _ h2) c hc)

theorem catLines_split : ∀ l : List Char,
    (catLines ((splitCharsOn '\n' l).map String.mk)).data = l ++ ['\n'] := by
  intro l
  induction l with
  | nil => rfl
  | cons c rest ih =>
    cases h : splitCharsOn '\n' rest with
    | nil => exact absurd h (splitCharsOn_ne_nil _ rest)
    | cons w ws =>
      rw [h] at ih
      by_cases hc : c = '\n'
      · subst hc
        simp only [splitCharsOn, h, if_pos rfl, List.map_cons, catLines, String.data_append] at ih ⊢
        simp at ih ⊢
        simp [ih]
      · simp only [splitCharsOn, h, if_neg hc, List.map_cons, catLines, String.data_append] at ih ⊢
        simp at ih ⊢
        simp [ih]

theorem printf_parse (content : String) (h : ∀ c ∈ content.data, c ≠ '\'') :
    shellSplitWords (printfCmdOf content) =
      some ("printf" :: "%s\\n" :: splitNl content) := by
  have hws : ∀ w ∈ splitNl content, ∀ c ∈ w.data, c ≠ '\'' := by
    intro w hw c hc
    rcases List.mem_map.mp hw with ⟨g, hg, rfl⟩
    exact h c (mem_splitCharsOn '\n' content.data g hg c hc)
  rw [shellSplitWords, printfCmdOf, String.data_append, printf_head, aux_join _ hws]
  simp only [Option.map_some', List.map_cons, List.map_map, mk_data]
  rw [show (String.mk ∘ fun x => x.data) = id from funext mk_data, List.map_id]

theorem printf_roundtrip (content : String) (h : ∀ c ∈ content.data, c ≠ '\'') :
    printfWrites (printfCmdOf content) = some (content ++ "\n") := by
  rw [printfWrites, printf_parse content h]
  simp only [if_pos rfl, if_true]
  congr 1
  apply str_ext
  rw [show splitNl content = (splitCharsOn '\n' content.data).map String.mk from rfl]
  rw [catLines_split]
  simp [String.data_append]

/-- C4 (amended): the tee hook's emitted line pipes a printf of the content's
lines, each wrapped verbatim in single quotes with NO escaping, into
`tee destination`. When the content contains no single-quote character, a
POSIX shell re-parsing the printf stage writes the original content
byte-for-byte plus a trailing newline; the claimed escaping of single-quote
characters does not exist (see the counterexample). -/
theorem C4_thm : ∀ (destination content : String) (sudoFlag : Bool),
    (∀ c ∈ content.data, c ≠ '\'') →
    teeLine destination content sudoFlag =
      printfCmdOf content ++ " | " ++ (if sudoFlag then "sudo " else "") ++
        "tee " ++ destination ∧
    printfWrites (printfCmdOf content) = some (content ++ "\n") :=
  fun _ content _ h => ⟨rfl, printf_roundtrip content h⟩

/-- C4 witness: a concrete two-line quote-free content round-trips. -/
theorem C4_wit :
    (∀ c ∈ ("abc\ndef").data, c ≠ '\'') ∧
    (teeLine "/etc/conf" "abc\ndef" true =
      printfCmdOf "abc\ndef" ++ " | " ++ (if true then "sudo " else "") ++
        "tee " ++ "/etc/conf" ∧
     printfWrites (printfCmdOf "abc\ndef") = some ("abc\ndef" ++ "\n")) :=
  ⟨by decide, C4_thm "/etc/conf" "abc\ndef" true (by decide)⟩

/-- C4 counterexample: content `a'b` holds a single quote; the emitted line
passes it through unescaped, yielding `printf '%s\n' 'a'b' | tee /etc/f`,
which no POSIX shell parses back to the original content (the word list is
ill-formed), so the claimed round trip fails. -/
theorem C4_cex :
    teeLine "/etc/f" "a'b" false = "printf '%s\\n' 'a'b' | tee /etc/f" ∧
    shellSplitWords (teeLine "/etc/f" "a'b" false) = none ∧
    printfWrites (printfCmdOf "a'b") = none :=
  ⟨rfl, rfl, rfl⟩

/-! ### C5: the install-command merge policy -/

theorem entry_cmd_map (nm : String) (cmds : List String) :
    (cmds.map (fun c => ({ cmd := c, tag := Tag.pkg nm } : Entry))).map (·.cmd) = cmds := by
  induction cmds with
  | nil => rfl
  | cons c cs ih =>
    simp only [List.map_cons]
    exact congrArg (List.cons c) ih

theorem apt_step (acc : List (String × List String)) (a : String) :
    mergeStep acc ("sudo apt install -y " ++ a) =
      upsertArg acc "sudo apt install -y" a := by
  cases a
  rfl

theorem upsert_single (k arg : String) (args : List String) :
    upsertArg [(k, args)] k arg = [(k, args ++ [arg])] := by
  simp [upsertArg]

theorem apt_fold : ∀ (rest args : List String),
    ((rest.map (fun x => "sudo apt install -y " ++ x)).foldl mergeStep
        [("sudo apt install -y", args)]) =
      [("sudo apt install -y", args ++ rest)] := by
  intro rest
  induction rest with
  | nil => intro args; simp
  | cons x xs ih =>
    intro args
    rw [List.map_cons, List.foldl_cons, apt_step, upsert_single, ih]
    simp

/-- C5: install commands are merged exactly for packages without an explicit
`depends_on`: a `depends_on`-declaring package's install lines go verbatim
into the direct command stream and never touch the merge list, a
`depends_on`-free package's install lines go only into the merge list, all
merge-collected `sudo apt install -y` lines collapse into one invocation
whose arguments keep first-seen order, and the manifest
`{"curl": "apt", "htop": "apt"}` for ubuntu yields exactly the single line
`sudo apt install -y curl htop`. -/
theorem C5_thm :
    (∀ fuel : Nat, distroscript aptPairRaw OS.ubuntu (fuel + 1) =
      Out.script "sudo apt install -y curl htop") ∧
    (∀ (p : Pkg) (cmds : List String) (st : St), (p.config.dependsOn).isSome →
      (routeInstall p cmds st).toMerge = st.toMerge ∧
      (routeInstall p cmds st).commands.map (·.cmd) =
        st.commands.map (·.cmd) ++ cmds ∧
      (routeInstall p cmds st).prePre = st.prePre ∧
      (routeInstall p cmds st).postApp = st.postApp) ∧
    (∀ (p : Pkg) (cmds : List String) (st : St), ¬ (p.config.dependsOn).isSome →
      (routeInstall p cmds st).commands = st.commands ∧
      (routeInstall p cmds st).toMerge.map (·.cmd) =
        st.toMerge.map (·.cmd) ++ cmds) ∧
    (∀ (a : String) (rest : List String) (l : List Entry),
      l.map (·.cmd) = (a :: rest).map (fun x => "sudo apt install -y " ++ x) →
      a :: rest ≠ [""] →
      mergeCmds l = ["sudo apt install -y " ++ joinSp (a :: rest)]) := by
  refine ⟨fun _ => rfl, ?_, ?_, ?_⟩
  · intro p cmds st h
    simp [routeInstall, h]
    simpa using entry_cmd_map p.name cmds
  · intro p cmds st h
    simp [routeInstall, h]
    simpa using entry_cmd_map p.name cmds
  · intro a rest l hl hne
    rw [mergeCmds, hl, List.map_cons, List.foldl_cons, apt_step]
    rw [show upsertArg [] "sudo apt install -y" a = [("sudo apt install -y", [a])] from rfl]
    rw [apt_fold rest]
    rw [List.map_singleton, renderGroup]
    rw [if_neg (by simpa using hne)]
    rw [show ("sudo apt install -y" ++ " " : String) = "sudo apt install -y " from rfl]
    simp

/-! ### C9: first-match applicability resolution and silent skip -/

theorem find_first_available (os : OS) (p : Pkg) :
    ∀ (pre post : List Pkg), (∀ q ∈ pre, isAvailable q os = false) →
    isAvailable p os = true →
    (pre ++ p :: post).find? (isAvailable · os) = some p := by
  intro pre
  induction pre with
  | nil => intro post _ hp; simp [List.find?_cons, hp]
  | cons q qs ih =>
    intro post h hp
    have hq : isAvailable q os = false := h q (List.mem_cons_self _ _)
    rw [List.cons_append, List.find?_cons, hq]
    exact ih post (fun x hx => h x (List.mem_cons_of_mem _ hx)) hp

/-- C9: the resolver picks the first declared variant whose applicability
test accepts the target OS; with no applicable variant (or an unknown name)
it yields nothing, and a name that resolves to nothing contributes no lines
and raises no error — `install_package` returns the state unchanged. -/
theorem C9_thm :
    (∀ (m : Mani) (os : OS) (name : String) (pre post : List Pkg) (p : Pkg),
      lookupVariants m name = some (pre ++ p :: post) →
      (∀ q ∈ pre, isAvailable q os = false) → isAvailable p os = true →
      resolve m os name = some p) ∧
    (∀ (m : Mani) (os : OS) (name : String) (vars : List Pkg),
      lookupVariants m name = some vars →
      (∀ q ∈ vars, isAvailable q os = false) →
      resolve m os name = none) ∧
    (∀ (m : Mani) (os : OS) (name : String),
      lookupVariants m name = none → resolve m os name = none) ∧
    (∀ (m : Mani) (os : OS) (fuel : Nat) (name : String) (st : St),
      resolve m os name = none →
      installPackage m os (fuel + 1) name st = .ok st) := by
  refine ⟨?_, ?_, ?_, ?_⟩
  · intro m os name pre post p hl hpre hp
    rw [resolve, hl]
    exact find_first_available os p pre post hpre hp
  · intro m os name vars hl hall
    rw [resolve, hl]
    exact List.find?_eq_none.mpr (fun q hq => by simp [hall q hq])
  · intro m os name hl
    rw [resolve, hl]
  · intro m os fuel name st h
    rw [installPackage]
    by_cases hin : name ∈ st.installed
    · rw [if_pos hin]
    · rw [if_neg hin]
      simp only [h]

/-! ### C3: emission order versus the merge hoisting -/

/-- C3 counterexample: in `hoistRaw`, `mypkg` (merge-eligible, no
`depends_on`) depends on the manifest package `pip` (which declares
`depends_on`), yet the final stream opens with `mypkg`'s install line and
ends with `pip`'s: the dependency's install command comes after its
dependent's, because merge-eligible installs are hoisted into a front
block. -/
theorem C3_cex :
    distroscript hoistRaw OS.ubuntu 9 =
      Out.script (joinNl ["pip3 install mypkg",
        "which curl || \x7b echo \"Warning: curl not found\"; exit 1; \x7d",
        "sudo apt install -y pip"]) := rfl

/-- C3 (amended): the assembled script is the collected pre-hooks, then the
merged (hoisted) installs of `depends_on`-free packages, then the direct
command stream, then collected post-hooks; within the direct command stream
a `depends_on`-declaring package's lines are appended strictly after
everything its dependency traversal emitted, while a `depends_on`-free
package contributes nothing to the direct stream (its install is hoisted).
The claimed global dependency-before-dependent order fails across the two
streams. -/
theorem C3_thm :
    (∀ st : St, assembleLines st =
      st.prePre ++ mergeCmds st.toMerge ++ st.commands.map (·.cmd) ++ st.postApp) ∧
    (∀ (m : Mani) (os : OS) (f : Nat) (name : String) (st st1 : St) (P : Pkg)
      (cmds : List String), name ∉ st.installed → resolve m os name = some P →
      installDeps m os f P.dependencies st = .ok st1 → emitInstall P os = .ok cmds →
      (P.config.dependsOn).isSome →
      installPackage m os (f + 1) name st = .ok (emitPhase P name cmds st1) ∧
      (emitPhase P name cmds st1).commands =
        st1.commands ++ anonEntries (preCmds P) ++
          cmds.map (fun c => ⟨c, Tag.pkg P.name⟩) ++ anonEntries (postCmds P) ∧
      (∃ a, st1.commands = st.commands ++ a)) ∧
    (∀ (p : Pkg) (cmds : List String) (st : St), ¬ (p.config.dependsOn).isSome →
      (routeInstall p cmds st).commands = st.commands) := by
  refine ⟨fun st => rfl, ?_, ?_⟩
  · intro m os f name st st1 P cmds hin hr hd he hdep
    refine ⟨install_ok_build hin hr hd he, ?_, (installDeps_mono m os f _ _ _ hd).1⟩
    simp [emitPhase, routePost, routeInstall, routePre, hdep]
  · intro p cmds st hdep
    simp [routeInstall, hdep]

/-! ### The cycle trap: a successor-closed set of uninstalled names blocks
every run that touches it -/

theorem depsLoop_pres {m : Mani} {os : OS} {inst : String → St → Res} {P : St → Prop}
    (hg : ∀ st d, P st → P { st with commands := st.commands ++ [guardEntry d] })
    (hil : ∀ tp k cmds st, P st → P (inlineAppend tp k cmds st))
    (hinst : ∀ d st st', inst d st = .ok st' → P st → P st') :
    ∀ (L : List DepEntry) (st st' : St), depsLoop m os inst L st = .ok st' → P st → P st' := by
  intro L
  induction L with
  | nil => intro st st' h hP; rw [depsLoop] at h; simp at h; exact h ▸ hP
  | cons dep rest ih =>
    intro st st' h hP
    match dep with
    | .nm d =>
      rw [depsLoop] at h
      cases hr : resolve m os d with
      | some p =>
        simp only [hr] at h
        cases hi : inst d st with
        | ok st1 =>
          simp only [hi] at h
          exact ih _ _ h (hinst _ _ _ hi hP)
        | err e => simp only [hi] at h; simp at h
        | nofuel => simp only [hi] at h; simp at h
      | none =>
        simp only [hr] at h
        exact ih _ _ h (hg st d hP)
    | .inline cfg =>
      rw [depsLoop] at h
      cases hc : cfg.type? with
      | none => simp only [hc] at h; simp at h
      | some t =>
        simp only [hc] at h
        cases hk : createPackage ("inline_dep_" ++ toString st.commands.length) (.tbl cfg) with
        | error e => simp only [hk] at h; simp at h
        | ok tp =>
          simp only [hk] at h
          by_cases ha : isAvailable tp os
          · rw [if_pos ha] at h
            cases he : emitInstall tp os with
            | error e => simp only [he] at h; simp at h
            | ok cmds =>
              simp only [he] at h
              exact ih _ _ h (hil tp st.commands.length cmds st hP)
          · rw [if_neg ha] at h
            exact ih _ _ h hP

theorem depsLoop_visits {m : Mani} {os : OS} {inst : String → St → Res} {P : St → Prop}
    (hg : ∀ st d, P st → P { st with commands := st.commands ++ [guardEntry d] })
    (hil : ∀ tp k cmds st, P st → P (inlineAppend tp k cmds st))
    (hinst : ∀ d st st', inst d st = .ok st' → P st → P st') :
    ∀ (L : List DepEntry) (st st' : St), depsLoop m os inst L st = .ok st' → P st →
    ∀ d, DepEntry.nm d ∈ L → (resolve m os d).isSome →
    ∃ ste ste', P ste ∧ inst d ste = .ok ste' := by
  intro L
  induction L with
  | nil => intro st st' h hP d hd; simp at hd
  | cons dep rest ih =>
    intro st st' h hP d hd hres
    match dep with
    | .nm d' =>
      rw [depsLoop] at h
      cases hr : resolve m os d' with
      | some p =>
        simp only [hr] at h
        cases hi : inst d' st with
        | ok st1 =>
          simp only [hi] at h
          by_cases hdd : d = d'
          · exact ⟨st, st1, hP, hdd ▸ hi⟩
          · have : DepEntry.nm d ∈ rest := by
              rcases List.mem_cons.mp hd with h1 | h2
              · cases h1; exact absurd rfl hdd
              · exact h2
            exact ih _ _ h (hinst _ _ _ hi hP) d this hres
        | err e => simp only [hi] at h; simp at h
        | nofuel => simp only [hi] at h; simp at h
      | none =>
        simp only [hr] at h
        have : DepEntry.nm d ∈ rest := by
          rcases List.mem_cons.mp hd with h1 | h2
          · cases h1; rw [hr] at hres; simp at hres
          · exact h2
        exact ih _ _ h (hg st d' hP) d this hres
    | .inline cfg =>
      rw [depsLoop] at h
      have hdrest : DepEntry.nm d ∈ rest := by
        rcases List.mem_cons.mp hd with h1 | h2
        · cases h1
        · exact h2
      cases hc : cfg.type? with
      | none => simp only [hc] at h; simp at h
      | some t =>
        simp only [hc] at h
        cases hk : createPackage ("inline_dep_" ++ toString st.commands.length) (.tbl cfg) with
        | error e => simp only [hk] at h; simp at h
        | ok tp =>
          simp only [hk] at h
          by_cases ha : isAvailable tp os
          · rw [if_pos ha] at h
            cases he : emitInstall tp os with
            | error e => simp only [he] at h; simp at h
            | ok cmds =>
              simp only [he] at h
              exact ih _ _ h (hil tp st.commands.length cmds st hP) d hdrest hres
          · rw [if_neg ha] at h
            exact ih _ _ h hP d hdrest hres

/-- A successor-closed set of names entirely outside the installed set stays
outside it through any successful `install_package` call: completing any of
its members would require completing its successor first, descending
forever. -/
theorem trap_keep {m : Mani} {os : OS} {C : List String}
    (hC : ∀ x ∈ C, ∃ y ∈ C, edgeTo m os x y) :
    ∀ (f : Nat) (name : String) (st st' : St), installPackage m os f name st = .ok st' →
    (∀ x ∈ C, x ∉ st.installed) → (∀ x ∈ C, x ∉ st'.installed) := by
  intro f
  induction f with
  | zero => intro name st st' h; simp [installPackage] at h
  | succ f ihf =>
    intro name st st' h hP
    rcases install_ok_cases h with ⟨hin, rfl⟩ | ⟨_, _, rfl⟩ |
      ⟨f', Pk, st1, cmds, hf, hin, hr, hd, he, rfl⟩
    · exact hP
    · exact hP
    · have hff : f' = f := Nat.succ_injective hf.symm
      subst hff
      rw [installDeps] at hd
      by_cases hname : name ∈ C
      · rcases hC name hname with ⟨y, hyC, Pn, hrn, hyd⟩
        have hPP : Pn = Pk := by rw [hr] at hrn; exact (Option.some.inj hrn).symm
        rw [hPP] at hyd
        have hys : (resolve m os y).isSome := by
          rcases hC y hyC with ⟨z, _, Py, hry, _⟩
          rw [hry]; rfl
        rcases depsLoop_visits (P := fun st => ∀ x ∈ C, x ∉ st.installed)
          (fun st d hp => hp) (fun tp k cmds st hp => hp) ihf
          Pk.dependencies st st1 hd hP y hyd hys with ⟨ste, ste', hPste, hok⟩
        have h1 := install_mem_installed hok hys
        have h2 := ihf y ste ste' hok hPste y hyC
        exact absurd h1 h2
      · have hP1 : ∀ x ∈ C, x ∉ st1.installed :=
          depsLoop_pres (P := fun st => ∀ x ∈ C, x ∉ st.installed)
            (fun st d hp => hp) (fun tp k cmds st hp => hp) ihf
            Pk.dependencies st st1 hd hP
        intro x hx
        rw [show (emitPhase Pk name cmds st1).installed = st1.installed.insert name from
          emitPhase_installed Pk name cmds st1]
        intro hmem
        rcases List.mem_insert_iff.mp hmem with h1 | h2
        · exact hname (h1 ▸ hx)
        · exact hP1 x hx h2

theorem trap_no_ok {m : Mani} {os : OS} {C : List String}
    (hC : ∀ x ∈ C, ∃ y ∈ C, edgeTo m os x y) {name : String} (hname : name ∈ C) :
    ∀ (f : Nat) (st st' : St), (∀ x ∈ C, x ∉ st.installed) →
    installPackage m os f name st ≠ .ok st' := by
  intro f st st' hP hok
  have hres : (resolve m os name).isSome := by
    rcases hC name hname with ⟨y, _, Pn, hrn, _⟩
    rw [hrn]; rfl
  exact absurd (install_mem_installed hok hres) (trap_keep hC f name st st' hok hP name hname)

theorem trap_installAll {m : Mani} {os : OS} {C : List String}
    (hC : ∀ x ∈ C, ∃ y ∈ C, edgeTo m os x y) {name : String} (hname : name ∈ C) :
    ∀ (names : List String) (f : Nat) (st st' : St), name ∈ names →
    (∀ x ∈ C, x ∉ st.installed) → installAll m os f names st ≠ .ok st' := by
  intro names
  induction names with
  | nil => intro f st st' hmem; simp at hmem
  | cons n rest ih =>
    intro f st st' hmem hP hok
    rw [installAll] at hok
    by_cases hn : (resolve m os n).isSome
    · rw [if_pos hn] at hok
      cases hi : installPackage m os f n st with
      | ok st1 =>
        rw [hi] at hok
        by_cases hnn : n = name
        · exact trap_no_ok hC hname f st st1 hP (hnn ▸ hi)
        · have : name ∈ rest := by
            rcases List.mem_cons.mp hmem with h1 | h2
            · exact absurd h1.symm hnn
            · exact h2
          exact ih f st1 st' this (trap_keep hC f n st st1 hi hP) hok
      | err e => rw [hi] at hok; simp at hok
      | nofuel => rw [hi] at hok; simp at hok
    · rw [if_neg hn] at hok
      have : name ∈ rest := by
        rcases List.mem_cons.mp hmem with h1 | h2
        · subst h1
          rcases hC name hname with ⟨y, _, Pn, hrn, _⟩
          rw [hrn] at hn; simp at hn
        · exact h2
      exact ih f st st' this hP hok

/-- C1 (amended): a direct mutual dependency cycle between two resolvable
named packages does not degenerate to a no-op; it makes the traversal
recurse forever (the installed-set check happens before a package is marked
installed, so neither side ever short-circuits), and the top-level
installation loop over any name list containing one of them never completes
successfully at any recursion budget. -/
theorem C1_thm : ∀ (m : Mani) (os : OS) (a b : String) (Pa Pb : Pkg),
    resolve m os a = some Pa → resolve m os b = some Pb →
    DepEntry.nm b ∈ Pa.dependencies → DepEntry.nm a ∈ Pb.dependencies →
    ∀ (names : List String), a ∈ names → ∀ (st : St),
    a ∉ st.installed → b ∉ st.installed →
    ∀ (fuel : Nat) (st' : St), installAll m os fuel names st ≠ .ok st' := by
  intro m os a b Pa Pb hra hrb hab hba names hmem st hai hbi fuel st'
  have hC : ∀ x ∈ [a, b], ∃ y ∈ [a, b], edgeTo m os x y := by
    intro x hx
    rcases List.mem_cons.mp hx with h1 | h2
    · exact ⟨b, by simp, h1 ▸ ⟨Pa, hra, hab⟩⟩
    · have : x = b := by simpa using h2
      exact ⟨a, by simp, this ▸ ⟨Pb, hrb, hba⟩⟩
  have hP : ∀ x ∈ [a, b], x ∉ st.installed := by
    intro x hx
    rcases List.mem_cons.mp hx with h1 | h2
    · exact h1 ▸ hai
    · have : x = b := by simpa using h2
      exact this ▸ hbi
  exact trap_installAll hC (by simp) names fuel st st' hmem hP

/-- C1 witness: the concrete two-package cycle manifest satisfies every
hypothesis and its top-level loop indeed never completes. -/
theorem C1_wit :
    (resolve cycleMani OS.ubuntu "a" = some cyclePkgA ∧
     resolve cycleMani OS.ubuntu "b" = some cyclePkgB ∧
     DepEntry.nm "b" ∈ cyclePkgA.dependencies ∧
     DepEntry.nm "a" ∈ cyclePkgB.dependencies ∧
     "a" ∈ ["a", "b"] ∧ "a" ∉ St.empty.installed ∧ "b" ∉ St.empty.installed) ∧
    (∀ (fuel : Nat) (st' : St),
      installAll cycleMani OS.ubuntu fuel ["a", "b"] St.empty ≠ .ok st') := by
  refine ⟨⟨rfl, rfl, ?_, ?_, by simp, by simp [St.empty], by simp [St.empty]⟩,
    fun fuel st' => C1_thm cycleMani OS.ubuntu "a" "b" cyclePkgA cyclePkgB rfl rfl ?_ ?_
      ["a", "b"] (by simp) St.empty (by simp [St.empty]) (by simp [St.empty]) fuel st'⟩
  all_goals
    simp [show cyclePkgA.dependencies = [DepEntry.nm "b"] from rfl,
      show cyclePkgB.dependencies = [DepEntry.nm "a"] from rfl]

/-! ### C7: every package name is installed at most once -/

theorem createPackage_ok_name (name : String) (cfg : Cfg) (pk : Pkg)
    (h : createPackage name (.tbl cfg) = .ok pk) : pk.name = name := by
  simp only [createPackage] at h
  cases hreg : registryLookup (cfg.type?.getD name) with
  | none => simp only [hreg] at h; cases h
  | some pt =>
    simp only [hreg, Bind.bind, Except.bind] at h
    cases h1 : parseScripts cfg.preInstall with
    | error e => simp [h1] at h
    | ok l1 =>
      simp only [h1] at h
      cases h2 : parseScripts cfg.postInstall with
      | error e => simp [h2] at h
      | ok l2 =>
        simp only [h2] at h
        cases h3 : implicitDeps pt name with
        | error e => simp [h3] at h
        | ok imp =>
          simp only [h3] at h
          injection h with h4
          rw [← h4]

theorem createPackage_any_name (name : String) (mc : MCfg) (pk : Pkg)
    (h : createPackage name mc = .ok pk) : pk.name = name := by
  cases mc with
  | str s => exact createPackage_ok_name name (emptyCfg (some s)) pk h
  | tbl c => exact createPackage_ok_name name c pk h

theorem createAll_names : ∀ (name : String) (ms : List MCfg) (vars : List Pkg),
    createAll name ms = .ok vars → ∀ p ∈ vars, p.name = name := by
  intro name ms
  induction ms with
  | nil =>
    intro vars hv p hp
    rw [createAll] at hv
    injection hv with h4
    rw [← h4] at hp
    simp at hp
  | cons c cs ihc =>
    intro vars hv p hp
    rw [createAll] at hv
    cases hc : createPackage name c with
    | error e => simp [hc, Bind.bind, Except.bind] at hv
    | ok pk =>
      simp only [hc, Bind.bind, Except.bind] at hv
      cases hcs : createAll name cs with
      | error e => simp [hcs] at hv
      | ok pks =>
        simp only [hcs] at hv
        injection hv with h4
        rw [← h4] at hp
        rcases List.mem_cons.mp hp with rfl | hmem
        · exact createPackage_any_name name c p hc
        · exact ihc pks hcs p hmem

theorem loadPackages_wellNamed : ∀ (raw : List (String × List MCfg)) (m : Mani),
    loadPackages raw = .ok m → WellNamed m := by
  intro raw
  induction raw with
  | nil =>
    intro m h
    rw [loadPackages] at h
    injection h with h4
    intro pr hpr
    rw [← h4] at hpr
    simp at hpr
  | cons hd rest ih =>
    intro m h
    rw [loadPackages] at h
    cases hv : createAll hd.1 hd.2 with
    | error e => simp [hv, Bind.bind, Except.bind] at h
    | ok vars =>
      simp only [hv, Bind.bind, Except.bind] at h
      cases hrest : loadPackages rest with
      | error e => simp [hrest] at h
      | ok m2 =>
        simp only [hrest] at h
        injection h with h4
        intro pr hpr p hp
        rw [← h4] at hpr
        rcases List.mem_cons.mp hpr with rfl | hmem
        · exact createAll_names hd.1 hd.2 vars hv p hp
        · exact ih m2 hrest pr hmem p hp

theorem resolve_name {m : Mani} {os : OS} {name : String} {P : Pkg}
    (hWN : WellNamed m) (hr : resolve m os name = some P) : P.name = name := by
  rw [resolve] at hr
  cases hl : lookupVariants m name with
  | none => rw [hl] at hr; cases hr
  | some vars =>
    rw [hl] at hr
    have hPmem : P ∈ vars := List.mem_of_find?_eq_some hr
    rw [lookupVariants] at hl
    cases hf : m.find? (·.1 == name) with
    | none => rw [hf] at hl; cases hl
    | some pr =>
      rw [hf] at hl
      injection hl with h4
      have hpr : pr ∈ m := List.mem_of_find?_eq_some hf
      have hname : pr.1 = name := by
        have := List.find?_some hf
        simpa using this
      have h4' : pr.2 = vars := h4
      have := hWN pr hpr P (by rw [h4']; exact hPmem)
      rw [this, hname]

theorem depsLoop_new_inst {m : Mani} {os : OS} {inst : String → St → Res}
    (hmono : ∀ d st st', inst d st = .ok st' → ∀ x ∈ st.installed, x ∈ st'.installed) :
    ∀ (L : List DepEntry) (st st' : St), depsLoop m os inst L st = .ok st' →
    ∀ nm, nm ∉ st.installed → nm ∈ st'.installed →
    ∃ d ste ste', DepEntry.nm d ∈ L ∧ (resolve m os d).isSome ∧ inst d ste = .ok ste' ∧
      nm ∉ ste.installed ∧ nm ∈ ste'.installed ∧ (∀ x ∈ st.installed, x ∈ ste.installed) := by
  intro L
  induction L with
  | nil =>
    intro st st' h nm h1 h2
    rw [depsLoop] at h
    simp at h
    rw [← h] at h2
    exact absurd h2 h1
  | cons dep rest ih =>
    intro st st' h nm h1 h2
    match dep with
    | .nm d' =>
      rw [depsLoop] at h
      cases hr : resolve m os d' with
      | some p =>
        simp only [hr] at h
        cases hi : inst d' st with
        | ok st1 =>
          simp only [hi] at h
          by_cases hnm1 : nm ∈ st1.installed
          · exact ⟨d', st, st1, List.mem_cons_self _ _, by rw [hr]; rfl, hi, h1, hnm1,
              fun x hx => hx⟩
          · rcases ih _ _ h nm hnm1 h2 with ⟨d, ste, ste', hd, hds, hdok, hn1, hn2, hsub⟩
            exact ⟨d, ste, ste', List.mem_cons_of_mem _ hd, hds, hdok, hn1, hn2,
              fun x hx => hsub x (hmono d' st st1 hi x hx)⟩
        | err e => simp only [hi] at h; simp at h
        | nofuel => simp only [hi] at h; simp at h
      | none =>
        simp only [hr] at h
        rcases ih _ _ h nm h1 h2 with ⟨d, ste, ste', hd, hds, hdok, hn1, hn2, hsub⟩
        exact ⟨d, ste, ste', List.mem_cons_of_mem _ hd, hds, hdok, hn1, hn2, hsub⟩
    | .inline cfg =>
      rw [depsLoop] at h
      cases hc : cfg.type? with
      | none => simp only [hc] at h; simp at h
      | some t =>
        simp only [hc] at h
        cases hk : createPackage ("inline_dep_" ++ toString st.commands.length) (.tbl cfg) with
        | error e => simp only [hk] at h; simp at h
        | ok tp =>
          simp only [hk] at h
          by_cases ha : isAvailable tp os
          · rw [if_pos ha] at h
            cases he : emitInstall tp os with
            | error e => simp only [he] at h; simp at h
            | ok cmds =>
              simp only [he] at h
              rcases ih _ _ h nm h1 h2 with ⟨d, ste, ste', hd, hds, hdok, hn1, hn2, hsub⟩
              exact ⟨d, ste, ste', List.mem_cons_of_mem _ hd, hds, hdok, hn1, hn2, hsub⟩
          · rw [if_neg ha] at h
            rcases ih _ _ h nm h1 h2 with ⟨d, ste, ste', hd, hds, hdok, hn1, hn2, hsub⟩
            exact ⟨d, ste, ste', List.mem_cons_of_mem _ hd, hds, hdok, hn1, hn2, hsub⟩

theorem path_anti {m : Mani} {os : OS} {bad bad2 : List String}
    (hsub : ∀ v ∈ bad2, v ∈ bad) :
    ∀ {x l z}, Path m os bad x l z → Path m os bad2 x l z := by
  intro x l z h
  induction h with
  | refl x hx => exact Path.refl x (fun hc => hx (hsub x hc))
  | step hx hxy h ih => exact Path.step (fun hc => hx (hsub _ hc)) hxy ih

theorem path_head_mem {m : Mani} {os : OS} {bad : List String} {x l z} :
    Path m os bad x l z → x ∈ l := by
  intro h
  cases h with
  | refl x hx => exact List.mem_cons_self _ _
  | step hx hxy h => exact List.mem_cons_self _ _

theorem path_last_mem {m : Mani} {os : OS} {bad : List String} {x l z} :
    Path m os bad x l z → z ∈ l := by
  intro h
  induction h with
  | refl x hx => exact List.mem_cons_self _ _
  | step hx hxy h ih => exact List.mem_cons_of_mem _ ih

theorem path_not_bad {m : Mani} {os : OS} {bad : List String} {x l z} :
    Path m os bad x l z → ∀ v ∈ l, v ∉ bad := by
  intro h
  induction h with
  | refl x hx =>
    intro v hv
    rcases List.mem_cons.mp hv with rfl | hv2
    · exact hx
    · simp at hv2
  | step hx hxy h ih =>
    intro v hv
    rcases List.mem_cons.mp hv with rfl | hv2
    · exact hx
    · exact ih v hv2

theorem path_closed {m : Mani} {os : OS} {bad : List String} {t : String} :
    ∀ {x l z}, Path m os bad x l z → edgeTo m os z t →
    ∀ v ∈ l, ∃ w, (w ∈ l ∨ w = t) ∧ edgeTo m os v w := by
  intro x l z h
  induction h with
  | refl x hx =>
    intro hcl v hv
    rcases List.mem_cons.mp hv with rfl | hv2
    · exact ⟨t, Or.inr rfl, hcl⟩
    · simp at hv2
  | step hx hxy h ih =>
    intro hcl v hv
    rcases List.mem_cons.mp hv with rfl | hv2
    · exact ⟨_, Or.inl (List.mem_cons_of_mem _ (path_head_mem h)), hxy⟩
    · rcases ih hcl v hv2 with ⟨w, hw | rfl, hedge⟩
      · exact ⟨w, Or.inl (List.mem_cons_of_mem _ hw), hedge⟩
      · exact ⟨w, Or.inr rfl, hedge⟩

theorem install_path {m : Mani} {os : OS} :
    ∀ (f : Nat) (d : String) (std std' : St) (nm : String),
    installPackage m os f d std = .ok std' → nm ∉ std.installed → nm ∈ std'.installed →
    ∃ l, Path m os std.installed d l nm := by
  intro f
  induction f with
  | zero => intro d std std' nm h; simp [installPackage] at h
  | succ f ihf =>
    intro d std std' nm h h1 h2
    rcases install_ok_cases h with ⟨hin, rfl⟩ | ⟨_, _, rfl⟩ |
      ⟨f', Pk, st1, cmds, hf, hin, hr, hd, he, rfl⟩
    · exact absurd h2 h1
    · exact absurd h2 h1
    · have hff : f' = f := Nat.succ_injective hf.symm
      subst hff
      rw [installDeps] at hd
      by_cases hnd : nm = d
      · subst hnd
        exact ⟨[nm], Path.refl nm h1⟩
      · have h2' : nm ∈ st1.installed := by
          rw [emitPhase_installed] at h2
          rcases List.mem_insert_iff.mp h2 with h3 | h3
          · exact absurd h3 hnd
          · exact h3
        rcases depsLoop_new_inst
          (fun d st st' hok x hx => (installPackage_mono m os _ d st st' hok).2.2.2.2 x hx)
          Pk.dependencies std st1 hd nm h1 h2' with
          ⟨e, ste, ste', hemem, hres, hok, hn1, hn2, hsub⟩
        rcases ihf e ste ste' nm hok hn1 hn2 with ⟨l, hpath⟩
        exact ⟨d :: l, Path.step hin ⟨Pk, hr, hemem⟩ (path_anti hsub hpath)⟩

/-- During a package's own dependency traversal the package itself can never
get installed: that would need a dependency chain back to it, whose node set
is successor-closed and uninstalled, so the chain's traversal could not have
completed. -/
theorem no_reentry {m : Mani} {os : OS} {f : Nat} {name : String} {st st1 : St} {P : Pkg}
    (hin : name ∉ st.installed) (hr : resolve m os name = some P)
    (hd : depsLoop m os (installPackage m os f) P.dependencies st = .ok st1) :
    name ∉ st1.installed := by
  intro hmem
  rcases depsLoop_new_inst
    (fun d s s' hok x hx => (installPackage_mono m os f d s s' hok).2.2.2.2 x hx)
    P.dependencies st st1 hd name hin hmem with
    ⟨e, ste, ste', hemem, hres, hok, hn1, hn2, hsub⟩
  rcases install_path f e ste ste' name hok hn1 hn2 with ⟨l, hpath0⟩
  have hpath : Path m os st.installed e l name := path_anti hsub hpath0
  have hclose : edgeTo m os name e := ⟨P, hr, hemem⟩
  have hC : ∀ v ∈ l, ∃ w ∈ l, edgeTo m os v w := by
    intro v hv
    rcases path_closed hpath hclose v hv with ⟨w, hw | hwt, hedge⟩
    · exact ⟨w, hw, hedge⟩
    · exact ⟨e, path_head_mem hpath, hwt ▸ hedge⟩
  rcases depsLoop_visits (P := fun s => ∀ v ∈ l, v ∉ s.installed)
    (fun s d hp => hp) (fun tp k cmds s hp => hp)
    (fun d s s' hok2 hp => trap_keep hC f d s s' hok2 hp)
    P.dependencies st st1 hd (path_not_bad hpath) e hemem hres with
    ⟨sv, sv', hQ, hokv⟩
  exact absurd (install_mem_installed hokv hres)
    (trap_keep hC f e sv sv' hokv hQ e (path_head_mem hpath))

theorem tag_anon_ne (nm : String) : (Tag.anon == Tag.pkg nm) = false := by
  rw [beq_eq_false_iff_ne]
  intro h
  exact Tag.noConfusion h

theorem tag_inline_ne (nm : String) (k : Nat) : (Tag.inline k == Tag.pkg nm) = false := by
  rw [beq_eq_false_iff_ne]
  intro h
  exact Tag.noConfusion h

theorem tag_pkg_ne {nm nm' : String} (h : nm' ≠ nm) : (Tag.pkg nm' == Tag.pkg nm) = false := by
  rw [beq_eq_false_iff_ne]
  intro he
  apply h
  cases he
  rfl

theorem filter_anon (nm : String) : ∀ l : List String,
    (anonEntries l).filter (fun e => e.tag == Tag.pkg nm) = [] := by
  intro l
  induction l with
  | nil => rfl
  | cons c cs ih =>
    simp only [anonEntries, List.map_cons, List.filter_cons] at ih ⊢
    rw [show (({ cmd := c, tag := Tag.anon } : Entry).tag == Tag.pkg nm) = false from
      tag_anon_ne nm]
    exact ih

theorem filter_inline (nm : String) (k : Nat) : ∀ l : List String,
    (l.map (fun c => ({ cmd := c, tag := Tag.inline k } : Entry))).filter
      (fun e => e.tag == Tag.pkg nm) = [] := by
  intro l
  induction l with
  | nil => rfl
  | cons c cs ih =>
    simp only [List.map_cons, List.filter_cons]
    rw [show (({ cmd := c, tag := Tag.inline k } : Entry).tag == Tag.pkg nm) = false from
      tag_inline_ne nm k]
    exact ih

theorem filter_pkg_self (nm : String) : ∀ l : List String,
    (l.map (fun c => ({ cmd := c, tag := Tag.pkg nm } : Entry))).filter
      (fun e => e.tag == Tag.pkg nm) = l.map (fun c => ⟨c, Tag.pkg nm⟩) := by
  intro l
  induction l with
  | nil => rfl
  | cons c cs ih =>
    simp only [List.map_cons, List.filter_cons]
    rw [show (({ cmd := c, tag := Tag.pkg nm } : Entry).tag == Tag.pkg nm) = true from
      beq_self_eq_true _]
    simp [ih]

theorem filter_pkg_ne {nm nm' : String} (h : nm' ≠ nm) : ∀ l : List String,
    (l.map (fun c => ({ cmd := c, tag := Tag.pkg nm' } : Entry))).filter
      (fun e => e.tag == Tag.pkg nm) = [] := by
  intro l
  induction l with
  | nil => rfl
  | cons c cs ih =>
    simp only [List.map_cons, List.filter_cons]
    rw [show (({ cmd := c, tag := Tag.pkg nm' } : Entry).tag == Tag.pkg nm) = false from
      tag_pkg_ne h]
    exact ih

theorem tagged_guard (nm d : String) (st : St) :
    tagged nm { st with commands := st.commands ++ [guardEntry d] } = tagged nm st := by
  simp only [tagged, List.filter_append]
  rw [show ([guardEntry d].filter (fun e => e.tag == Tag.pkg nm)) = [] from by
    simp [List.filter_cons, guardEntry, tag_anon_ne]]
  simp

theorem tagged_inline (nm : String) (tp : Pkg) (k : Nat) (cmds : List String) (st : St) :
    tagged nm (inlineAppend tp k cmds st) = tagged nm st := by
  simp only [tagged, inlineAppend, List.filter_append, filter_anon, filter_inline]
  simp

theorem tagged_emit_ne {P : Pkg} {nm : String} (h : nm ≠ P.name) (name : String)
    (cmds : List String) (st1 : St) :
    tagged nm (emitPhase P name cmds st1) = tagged nm st1 := by
  cases hdep : (P.config.dependsOn).isSome <;>
    simp [emitPhase, routePre, routeInstall, routePost, hdep, tagged, List.filter_append,
      filter_anon, filter_pkg_ne (Ne.symm h)]

theorem tagged_emit_self {P : Pkg} (name : String) (cmds : List String) {st1 : St}
    (h0 : tagged P.name st1 = []) :
    tagged P.name (emitPhase P name cmds st1) =
      cmds.map (fun c => ⟨c, Tag.pkg P.name⟩) := by
  rw [tagged] at h0
  rcases List.append_eq_nil.mp h0 with ⟨hc, hm⟩
  cases hdep : (P.config.dependsOn).isSome <;>
    simp [emitPhase, routePre, routeInstall, routePost, hdep, tagged, List.filter_append,
      filter_anon, filter_pkg_self, hc, hm]

theorem inv_congr {m : Mani} {os : OS} {st st' : St}
    (h1 : ∀ nm, tagged nm st' = tagged nm st) (h2 : st'.installed = st.installed)
    (h : InvOnce m os st) : InvOnce m os st' := by
  intro nm
  rw [h1 nm, h2]
  exact h nm

theorem installPackage_inv {m : Mani} {os : OS} (hWN : WellNamed m) :
    ∀ (f : Nat) (name : String) (st st' : St), installPackage m os f name st = .ok st' →
    InvOnce m os st → InvOnce m os st' := by
  intro f
  induction f with
  | zero => intro name st st' h; simp [installPackage] at h
  | succ f ihf =>
    intro name st st' h hI
    rcases install_ok_cases h with ⟨hin, rfl⟩ | ⟨_, _, rfl⟩ |
      ⟨f', Pk, st1, cmds, hf, hin, hr, hd, he, rfl⟩
    · exact hI
    · exact hI
    · have hff : f' = f := Nat.succ_injective hf.symm
      subst hff
      rw [installDeps] at hd
      have hI1 : InvOnce m os st1 :=
        depsLoop_pres (P := InvOnce m os)
          (fun s d hp => inv_congr (fun nm => tagged_guard nm d s) rfl hp)
          (fun tp k cmds2 s hp => inv_congr (fun nm => tagged_inline nm tp k cmds2 s) rfl hp)
          ihf Pk.dependencies st st1 hd hI
      have hNR : name ∉ st1.installed := no_reentry hin hr hd
      have hPname : Pk.name = name := resolve_name hWN hr
      intro nm
      constructor
      · intro hnotin
        have hne : nm ≠ name := by
          intro heq
          subst heq
          exact hnotin (by rw [emitPhase_installed]; exact List.mem_insert_self _ _)
        have hnm1 : nm ∉ st1.installed := by
          intro hc
          exact hnotin (by rw [emitPhase_installed]; exact List.mem_insert_iff.mpr (Or.inr hc))
        rw [tagged_emit_ne (hPname ▸ hne) name cmds st1]
        exact (hI1 nm).1 hnm1
      · by_cases hnm : nm = name
        · subst hnm
          have h0 : tagged Pk.name st1 = [] := by
            rw [hPname]
            exact (hI1 nm).1 hNR
          right
          have htag := tagged_emit_self nm cmds h0
          rw [hPname] at htag
          rw [htag]
          simp only [blockFor, hr, he]
        · have htag := tagged_emit_ne (show nm ≠ Pk.name from fun heq => hnm (heq.trans hPname))
            name cmds st1
          rw [htag]
          exact (hI1 nm).2

theorem installAll_inv {m : Mani} {os : OS} (hWN : WellNamed m) :
    ∀ (names : List String) (f : Nat) (st st' : St),
    installAll m os f names st = .ok st' → InvOnce m os st → InvOnce m os st' := by
  intro names
  induction names with
  | nil =>
    intro f st st' h hI
    rw [installAll] at h
    simp at h
    exact h ▸ hI
  | cons n rest ih =>
    intro f st st' h hI
    rw [installAll] at h
    by_cases hn : (resolve m os n).isSome
    · rw [if_pos hn] at h
      cases hi : installPackage m os f n st with
      | ok st1 =>
        rw [hi] at h
        exact ih f st1 st' h (installPackage_inv hWN f n st st1 hi hI)
      | err e => rw [hi] at h; simp at h
      | nofuel => rw [hi] at h; simp at h
    · rw [if_neg hn] at h
      exact ih f st st' h hI

theorem invOnce_empty (m : Mani) (os : OS) : InvOnce m os St.empty :=
  fun _nm => ⟨fun _ => rfl, Or.inl rfl⟩

/-- C7: a name already in the installed set makes a fresh visitation a
strict no-op; consequently, over any successful run of the top-level loop
of a loaded manifest, every package name's install commands appear in the
two command streams either not at all or as exactly one copy of its single
resolved install block — never twice. The concrete diamond (`a` and `b`
both depending on `c`) emits `c`'s install line once, at first
visitation. -/
theorem C7_thm :
    (∀ (m : Mani) (os : OS) (fuel : Nat) (name : String) (st : St),
      name ∈ st.installed → installPackage m os (fuel + 1) name st = .ok st) ∧
    (∀ (raw : List (String × List MCfg)) (m : Mani) (os : OS) (fuel : Nat)
      (names : List String) (st' : St),
      loadPackages raw = .ok m → installAll m os fuel names St.empty = .ok st' →
      ∀ nm, tagged nm st' = [] ∨ blockFor m os nm = some (tagged nm st')) ∧
    (∀ fuel : Nat, distroscript diamondRaw OS.ubuntu (fuel + 2) =
      Out.script ("sudo apt install -y c\nsudo apt install -y a\nsudo apt install -y b")) := by
  refine ⟨?_, ?_, fun _ => rfl⟩
  · intro m os fuel name st h
    rw [installPackage, if_pos h]
  · intro raw m os fuel names st' hload hrun nm
    exact (installAll_inv (loadPackages_wellNamed raw m hload) names fuel St.empty st' hrun
      (invOnce_empty m os) nm).2
